import Mathlib

/-!
Verification of the trace-visualizer core
(`tools/debug-ui/src/trace_visualizer/TraceVisualizer.tsx` plus the otel
type declarations): span-forest construction, the overlap-avoiding layout
engine, the time/screen mapper and the timeline zoom handler.

JavaScript numbers are embedded as `Int` where the program only ever adds,
subtracts, compares, and takes `min`/`max` of integral nanosecond
timestamps and integral levels, and as `Rat` for the timeline/screen maps,
which divide.
-/

/-! ## Data model (otel.ts and the `VisSpan` family) -/

/-- `AttributeValue` from otel.ts: exactly one of the fields is normally
present; absent fields are `undefined` in JS, embedded as `none`. -/
structure AttributeValue where
  stringValue : Option String
  intValue : Option Int
  boolValue : Option Bool
  doubleValue : Option Rat
deriving Repr, DecidableEq

/-- A key/value attribute entry as consumed by the visualizer
(`attrs.find(kv => kv.key === "service.name")`). -/
structure KeyValue where
  key : String
  value : AttributeValue
deriving Repr, DecidableEq

/-- `Resource` from otel.ts. -/
structure Resource where
  attributes : List KeyValue
deriving Repr, DecidableEq

/-- `Event` from otel.ts. -/
structure Event where
  timeUnixNano : Int
  name : String
  attributes : List KeyValue
deriving Repr, DecidableEq

/-- `Link` from otel.ts. -/
structure Link where
  traceId : String
  spanId : String
  attributes : List KeyValue
deriving Repr, DecidableEq

/-- `Span` from otel.ts (the raw wire shape). -/
structure OtelSpan where
  traceId : String
  spanId : String
  parentSpanId : String
  name : String
  startTimeUnixNano : Int
  endTimeUnixNano : Int
  attributes : List KeyValue
  events : List Event
  links : List Link
deriving Repr, DecidableEq

/-- `ScopeSpans` from otel.ts. -/
structure ScopeSpans where
  spans : List OtelSpan
deriving Repr, DecidableEq

/-- `ResourceSpans` from otel.ts. -/
structure ResourceSpans where
  resource : Resource
  scopeSpans : List ScopeSpans
deriving Repr, DecidableEq

/-- `ExportTraceServiceRequest` from otel.ts. -/
structure ExportTraceServiceRequest where
  resourceSpans : List ResourceSpans
deriving Repr, DecidableEq

/-- `VisSpan` from TraceVisualizer.tsx: the visualizer's span
representation, a rose tree carrying the raw span data plus the mutable
`height_level` assigned by the layout engine. -/
inductive VisSpan : Type where
  | mk (spanId : String) (name : String) (startTime : Int) (endTime : Int)
      (parentSpanId : String) (children : List VisSpan) (events : List Event)
      (resource : Resource) (attributes : List KeyValue) (height_level : Int)
deriving Repr

def VisSpan.spanId : VisSpan → String
  | .mk i _ _ _ _ _ _ _ _ _ => i

def VisSpan.name : VisSpan → String
  | .mk _ n _ _ _ _ _ _ _ _ => n

def VisSpan.startTime : VisSpan → Int
  | .mk _ _ s _ _ _ _ _ _ _ => s

def VisSpan.endTime : VisSpan → Int
  | .mk _ _ _ e _ _ _ _ _ _ => e

def VisSpan.parentSpanId : VisSpan → String
  | .mk _ _ _ _ p _ _ _ _ _ => p

def VisSpan.children : VisSpan → List VisSpan
  | .mk _ _ _ _ _ c _ _ _ _ => c

def VisSpan.events : VisSpan → List Event
  | .mk _ _ _ _ _ _ ev _ _ _ => ev

def VisSpan.resource : VisSpan → Resource
  | .mk _ _ _ _ _ _ _ r _ _ => r

def VisSpan.attributes : VisSpan → List KeyValue
  | .mk _ _ _ _ _ _ _ _ a _ => a

def VisSpan.height_level : VisSpan → Int
  | .mk _ _ _ _ _ _ _ _ _ h => h

/-- Replace only the `height_level` field (the single mutation the layout
 engine performs on a span). -/
def VisSpan.withLevel : VisSpan → Int → VisSpan
  | .mk i n s e p c ev r a _, h => .mk i n s e p c ev r a h

/-- Replace only the `children` field (used by the forest builder when
 attaching children to a parent). -/
def VisSpan.withChildren : VisSpan → List VisSpan → VisSpan
  | .mk i n s e p _ ev r a h, c => .mk i n s e p c ev r a h

instance : Inhabited VisSpan :=
  ⟨.mk "" "" 0 0 "" [] [] ⟨[]⟩ [] 0⟩

/-- `SpanBoundingBox` from TraceVisualizer.tsx. -/
structure SpanBoundingBox where
  start_time : Int
  end_time : Int
  height : Int
deriving Repr, DecidableEq

/-- `VisNode` from TraceVisualizer.tsx. -/
structure VisNode where
  name : String
  attributes : List (String × String)
deriving Repr, DecidableEq

/-- `NodeSpans` from TraceVisualizer.tsx: one lane. -/
structure NodeSpans where
  node : VisNode
  spans : List VisSpan
  bbox : SpanBoundingBox

/-! ## Collision tests (`isBetween`, `isCollidingInAxis`, `isColliding`) -/

/-- `isBetween` from TraceVisualizer.tsx: `coord >= start && coord <= end`. -/
def isBetween (coord start stop : Int) : Bool :=
  decide (start ≤ coord) && decide (coord ≤ stop)

/-- `isCollidingInAxis` from TraceVisualizer.tsx: closed-interval overlap
test on one axis. -/
def isCollidingInAxis (begin1 end1 begin2 end2 : Int) : Bool :=
  isBetween begin2 begin1 end1 || isBetween end2 begin1 end1 ||
    isBetween begin1 begin2 end2 || isBetween end1 begin2 end2

/-- `isColliding` from TraceVisualizer.tsx: the spans collide when their
own time intervals overlap and the level intervals
`[height_level, height_level + bbox.height]` overlap (closed test on both
axes; the time test uses the spans' own intervals, not the boxes'). -/
def isColliding (span1 : VisSpan) (bbox1 : SpanBoundingBox)
    (span2 : VisSpan) (bbox2 : SpanBoundingBox) : Bool :=
  let is_time_colliding :=
    isCollidingInAxis span1.startTime span1.endTime span2.startTime span2.endTime
  if !is_time_colliding then
    false
  else
    isCollidingInAxis span1.height_level (span1.height_level + bbox1.height)
      span2.height_level (span2.height_level + bbox2.height)

/-! ## The insert-and-bump loop of `arrangeSpans`

The `while (true)` loop of `arrangeSpans` raises the current span's
`height_level` by 1 as long as it collides with some earlier sibling and
re-tests from scratch.  It is embedded as `bumpLoop`, a step-counted loop
whose step budget `(maxEndLevel done + 1 - h).toNat` provably suffices:
above `maxEndLevel done` no level collision with the already-placed
siblings is possible, which is exactly why the source's loop terminates. -/

/-- Collision test of the candidate span at candidate level `h` against all
already-placed earlier siblings (the `for (j = 0; j < i; j++)` scan). -/
def collidesAt (done : List (VisSpan × SpanBoundingBox)) (s : VisSpan)
    (b : SpanBoundingBox) (h : Int) : Bool :=
  done.any fun pb => isColliding (s.withLevel h) b pb.1 pb.2

/-- Largest occupied level-interval end among the placed siblings. -/
def maxEndLevel (done : List (VisSpan × SpanBoundingBox)) : Int :=
  done.foldl (fun m pb => max m (pb.1.height_level + pb.2.height)) 0

/-- Increment the level while the predicate holds, up to the given number
of steps. -/
def bumpLoop (p : Int → Bool) : Int → Nat → Int
  | h, 0 => h
  | h, n + 1 => if p h then bumpLoop p (h + 1) n else h

/-- One iteration of the outer `for` loop of `arrangeSpans`: run the
insert-and-bump loop for one span against the placed prefix. -/
def bumpOne (done : List (VisSpan × SpanBoundingBox)) (s : VisSpan)
    (b : SpanBoundingBox) : VisSpan :=
  let h0 := s.height_level
  s.withLevel (bumpLoop (collidesAt done s b) h0 (maxEndLevel done + 1 - h0).toNat)

/-- The whole collision-resolution pass of `arrangeSpans`: place siblings
left to right, bumping each against all earlier ones. -/
def bumpAll (pairs : List (VisSpan × SpanBoundingBox)) :
    List (VisSpan × SpanBoundingBox) :=
  pairs.foldl (fun done pb => done ++ [(bumpOne done pb.1 pb.2, pb.2)]) []

/-- The final aggregation loop of `arrangeSpans`: fold min/max/max over all
siblings starting from the first sibling's box. -/
def finalBox (pairs : List (VisSpan × SpanBoundingBox)) : SpanBoundingBox :=
  match pairs with
  | [] => ⟨0, 0, 0⟩
  | pb0 :: _ =>
    pairs.foldl
      (fun fb pb =>
        ⟨min fb.start_time pb.2.start_time, max fb.end_time pb.2.end_time,
          max fb.height (pb.1.height_level + pb.2.height)⟩)
      pb0.2

mutual

/-- `arrangeSpan` from TraceVisualizer.tsx: lay out one span's subtree and
return its bounding box.  A leaf's box is its own interval with height 1;
an internal span lays out its children as a sibling group, extends the
box with its own interval and adds one row for itself. -/
def arrangeSpan (s : VisSpan) : VisSpan × SpanBoundingBox :=
  match s with
  | .mk id nm st en pid ch ev rs ats hl =>
    match ch with
    | [] => (.mk id nm st en pid [] ev rs ats hl, ⟨st, en, 1⟩)
    | c :: cs =>
      let pairs := bumpAll (arrangeKids (c :: cs))
      let box := finalBox pairs
      (.mk id nm st en pid (pairs.map Prod.fst) ev rs ats hl,
        ⟨min st box.start_time, max en box.end_time, box.height + 1⟩)

/-- The `for (span of spans) arrangeSpan(span)` pass of `arrangeSpans`. -/
def arrangeKids : List VisSpan → List (VisSpan × SpanBoundingBox)
  | [] => []
  | s :: rest => arrangeSpan s :: arrangeKids rest

end

/-- `arrangeSpans` from TraceVisualizer.tsx: arrange a sibling group (a
lane's roots or a span's children), returning the regrouped spans with
their final levels and the group bounding box.  The empty group yields the
degenerate `{0, 0, 0}` box. -/
def arrangeSpans (spans : List VisSpan) : List VisSpan × SpanBoundingBox :=
  match spans with
  | [] => ([], ⟨0, 0, 0⟩)
  | l =>
    let pairs := bumpAll (arrangeKids l)
    (pairs.map Prod.fst, finalBox pairs)

/-! ## Derived views of an arranged forest

`treeBox` recomputes, from a tree that already carries its final levels,
the bounding box that `arrangeSpan` returned for it; `occAt` mirrors the
renderer (`DrawSpan`): a span drawn with cumulative offset `c` occupies
absolute row `c + height_level`, and its children are drawn with offset
`c + height_level + 1`. -/

mutual

/-- Recompute a subtree's bounding box from its stored levels (same
min/max/height recurrences as `arrangeSpan`/`arrangeSpans`). -/
def treeBox (s : VisSpan) : SpanBoundingBox :=
  match s with
  | .mk _ _ st en _ ch _ _ _ _ =>
    match ch with
    | [] => ⟨st, en, 1⟩
    | c :: cs =>
      let box := finalBox (treeBoxKids (c :: cs))
      ⟨min st box.start_time, max en box.end_time, box.height + 1⟩

/-- Pair every span of a sibling group with its recomputed subtree box. -/
def treeBoxKids : List VisSpan → List (VisSpan × SpanBoundingBox)
  | [] => []
  | s :: rest => (s, treeBox s) :: treeBoxKids rest

end

mutual

/-- Every span of a subtree, root first. -/
def allNodes : VisSpan → List VisSpan
  | .mk i n st en p ch ev r a h => .mk i n st en p ch ev r a h :: allNodesL ch

/-- Every span of a sibling group's subtrees. -/
def allNodesL : List VisSpan → List VisSpan
  | [] => []
  | s :: rest => allNodes s ++ allNodesL rest

end

/-- The span found at a child-index path inside one subtree, together with
its absolute row, rendered with cumulative offset `c` exactly as
`DrawSpan` does: the root sits at row `c + height_level`, children are
drawn with offset `c + height_level + 1`. -/
def occAt (c : Int) (s : VisSpan) : List Nat → Option (VisSpan × Int)
  | [] => some (s, c + s.height_level)
  | i :: p =>
    match s.children.get? i with
    | none => none
    | some t => occAt (c + s.height_level + 1) t p

/-- The span found at a path into a lane: first index selects the root
span, the rest descends inside its subtree (lane roots get offset 0, as in
`DrawNodeSpans`). -/
def groupOcc (l : List VisSpan) : List Nat → Option (VisSpan × Int)
  | [] => none
  | i :: p =>
    match l.get? i with
    | none => none
    | some r => occAt 0 r p

mutual

/-- All `height_level` fields of the subtree are 0 (the state in which the
forest builder hands spans to the layout engine: `extractVisSpans`
initializes `height_level: 0`). -/
def zeroLevB : VisSpan → Bool
  | .mk _ _ _ _ _ ch _ _ _ h => decide (h = 0) && zeroLevLB ch

/-- `zeroLevB` over a sibling group. -/
def zeroLevLB : List VisSpan → Bool
  | [] => true
  | s :: rest => zeroLevB s && zeroLevLB rest

end

mutual

/-- Well-nested timing: each span has `startTime ≤ endTime` and each
child's interval lies inside its parent's interval, recursively. -/
def nestedB : VisSpan → Bool
  | .mk _ _ st en _ ch _ _ _ _ => decide (st ≤ en) && nestedInB st en ch

/-- `nestedB` over a sibling group, also requiring every member's interval
to lie inside `[st, en]`. -/
def nestedInB (st en : Int) : List VisSpan → Bool
  | [] => true
  | s :: rest =>
    decide (st ≤ s.startTime) && decide (s.endTime ≤ en) && nestedB s &&
      nestedInB st en rest

end

/-! ## Stable sorting (JS `Array.prototype.sort` is stable) -/

/-- Insert `a` into an already sorted list, after any element `b` with
`le b a`, so that processing elements left to right yields a stable sort. -/
def insertBy {α : Type} (le : α → α → Bool) (a : α) : List α → List α
  | [] => [a]
  | b :: l => if le b a then b :: insertBy le a l else a :: b :: l

/-- Stable insertion sort, embedding JS's stable `sort(comparator)`. -/
def sortBy {α : Type} (le : α → α → Bool) (l : List α) : List α :=
  l.foldl (fun acc a => insertBy le a acc) []

/-! ## Span Forest Builder (`extractVisSpans`)

The TS code links mutable span objects through `children` pointers keyed
by an id map in which the last span holding an id wins, then returns the
spans with empty parent id.  The embedding works positionally over the
flattened span list: children attach to position `i` only when `i` is the
last position holding its id, and trees are unfolded to depth
`flat.length` (enough to reproduce every forest the claims quantify over;
a cyclic parent chain, which in TS yields a cyclic object graph, has no
finite tree unfolding). -/

/-- Phase 1 of `extractVisSpans`: one `VisSpan` per raw span, no children,
level 0, the enclosing resource denormalized onto the span. -/
def visOfOtel (res : Resource) (sp : OtelSpan) : VisSpan :=
  .mk sp.spanId sp.name sp.startTimeUnixNano sp.endTimeUnixNano
    sp.parentSpanId [] sp.events res sp.attributes 0

/-- The flattening loop nest of `extractVisSpans` over
requests/resourceSpans/scopeSpans/spans. -/
def flatVisSpans (otel_requests : List ExportTraceServiceRequest) : List VisSpan :=
  otel_requests.flatMap fun request =>
    request.resourceSpans.flatMap fun resource_spans =>
      resource_spans.scopeSpans.flatMap fun scope_spans =>
        scope_spans.spans.map (visOfOtel resource_spans.resource)

/-- The span at a position of the flat list (positions stand for the TS
object identities). -/
def spanAtIdx (flat : List VisSpan) (i : Nat) : VisSpan :=
  (flat.get? i).getD default

/-- Position `i` holds the last occurrence of its span id, i.e. it is the
object stored in `spanIdToSpan` for that id (later assignments win). -/
def isLastWithId (flat : List VisSpan) (i : Nat) : Bool :=
  !((flat.drop (i + 1)).any fun t => t.spanId == (spanAtIdx flat i).spanId)

/-- The child positions attached to position `i`: every span whose
`parentSpanId` equals this span's id, in input order, then sorted by start
time (stable) — and only on the id-map winner for that id. -/
def childIdxs (flat : List VisSpan) (i : Nat) : List Nat :=
  if isLastWithId flat i then
    sortBy (fun a b => decide ((spanAtIdx flat a).startTime ≤ (spanAtIdx flat b).startTime))
      ((List.range flat.length).filter fun j =>
        (spanAtIdx flat j).parentSpanId == (spanAtIdx flat i).spanId)
  else []

/-- Unfold the child graph below position `i` into a tree, to the given
depth. -/
def buildVisIdx (flat : List VisSpan) : Nat → Nat → VisSpan
  | 0, i => spanAtIdx flat i
  | f + 1, i =>
    (spanAtIdx flat i).withChildren ((childIdxs flat i).map (buildVisIdx flat f))

/-- `extractVisSpans` from TraceVisualizer.tsx: flatten the payload, link
children via the id map, sort children by start time, and return the
spans whose `parentSpanId` is empty, in input order. -/
def extractVisSpans (otel_requests : List ExportTraceServiceRequest) : List VisSpan :=
  let flat := flatVisSpans otel_requests
  ((List.range flat.length).filter fun i =>
      (spanAtIdx flat i).parentSpanId == "").map
    (buildVisIdx flat flat.length)

/-- `AllSpans.getSpansForTimeRange` from TraceVisualizer.tsx: filter the
stored top-level spans by closed-interval overlap of their own intervals
with the window. -/
def getSpansForTimeRange (spans : List VisSpan) (startTime endTime : Int) :
    List VisSpan :=
  spans.filter fun span =>
    isCollidingInAxis span.startTime span.endTime startTime endTime

/-! ## Lane Grouper (`getNodeSpans`) -/

/-- The lane key of a top-level span: the resource's `service.name`
attribute; a missing attribute yields the sentinel label, an attribute
without a string value yields the JS string of `undefined`. -/
def serviceName (span : VisSpan) : String :=
  match span.resource.attributes.find? (fun kv => kv.key == "service.name") with
  | some kv => kv.value.stringValue.getD "undefined"
  | none => "service.name missing"

/-- `getNodeSpans` from TraceVisualizer.tsx: group top-level spans by lane
key (first-encounter order, as JS object keys), sort lanes by name
(`localeCompare` embedded as string order), sort each lane's spans by
start time and lay them out. -/
def getNodeSpans (top_level_spans : List VisSpan) : List NodeSpans :=
  let names := (top_level_spans.map serviceName).eraseDups
  let all_nodes := sortBy (fun a b => decide (a ≤ b)) names
  all_nodes.map fun nm =>
    let cur_spans := sortBy (fun a b => decide (a.startTime ≤ b.startTime))
      (top_level_spans.filter fun s => serviceName s == nm)
    let res := arrangeSpans cur_spans
    ⟨⟨nm, []⟩, res.1, res.2⟩

/-! ## Timeline state and the time/screen mapper -/

/-- `TimelineAction` from TraceVisualizer.tsx. -/
inductive TimelineAction : Type where
  | None
  | DraggingEdge
  | DraggingMiddle
deriving Repr, DecidableEq

/-- `TimelineState` from TraceVisualizer.tsx; times are embedded as `Rat`
because the timeline arithmetic divides. -/
structure TimelineState where
  startTime : Rat
  endTime : Rat
  selectedStart : Rat
  selectedEnd : Rat
  minStartTime : Rat
  maxEndTime : Rat
  action : TimelineAction
  deltaX : Rat
  notDraggedEdgeTime : Rat
deriving Repr, DecidableEq

/-- The `TimelineState` constructor's placeholder defaults. -/
def TimelineState.init : TimelineState :=
  ⟨1000000000, 3000000000, 1500000000, 2500000000, 0, 4000000000,
    .None, 0, 0⟩

/-- `screenToTime` from TraceVisualizer.tsx. -/
def screenToTime (screenX : Rat) (timeline : TimelineState) (windowWidth : Rat) : Rat :=
  timeline.startTime + screenX / windowWidth * (timeline.endTime - timeline.startTime)

/-- `timeToScreen` from TraceVisualizer.tsx. -/
def timeToScreen (time : Rat) (timeline : TimelineState) (windowWidth : Rat) : Rat :=
  (time - timeline.startTime) / (timeline.endTime - timeline.startTime) * windowWidth

/-- JS division, kept partial: a zero divisor produces a non-finite
value (`Infinity` or `NaN`), embedded as `none`.  In the zoom handler
every arithmetic step and the `Math.max`/`Math.min` clamps propagate such
a value into the stored window (a window with a NaN or infinite
coordinate), so downstream `none` stands for "the handler stored a
window with a non-finite coordinate". -/
def jsDiv (x y : Rat) : Option Rat :=
  if y = 0 then none else some (x / y)

/-- `screenToTime` under JS division semantics: `screenX / windowWidth`
is non-finite when the width is zero, and then so is the whole
expression. -/
def screenToTimeJs (screenX : Rat) (timeline : TimelineState)
    (windowWidth : Rat) : Option Rat :=
  (jsDiv screenX windowWidth).map fun r =>
    timeline.startTime + r * (timeline.endTime - timeline.startTime)

/-- `timelineScrollHandler` from TraceVisualizer.tsx: zoom the
navigational window around the cursor time, then clamp the new start up
to `minStartTime` and the new end down to `maxEndTime`.  The two
divisions (`screenX / windowWidth` inside `screenToTime`, and
`... * newLength / currentLength`) use JS semantics: when either divisor
is zero — a zero `windowWidth`, or the degenerate window
`endTime = startTime` that §7 of the spec leaves unhandled — the real
handler stores a window with a NaN or infinite coordinate, embedded
here as `none`. -/
def timelineScrollHandler (timeline : TimelineState)
    (mouseX deltaY windowWidth : Rat) : Option TimelineState :=
  (screenToTimeJs mouseX timeline windowWidth).bind fun mouseTime =>
    let speedFactor : Rat := 1 / 1000
    let scrollAmount := deltaY * speedFactor
    let currentLength := timeline.endTime - timeline.startTime
    let newLength := currentLength * (1 + scrollAmount)
    (jsDiv ((mouseTime - timeline.startTime) * newLength) currentLength).map
      fun shift =>
        let newStart := mouseTime - shift
        let newEnd := newStart + newLength
        let clampedStart := max timeline.minStartTime newStart
        let clampedEnd := min timeline.maxEndTime newEnd
        { timeline with startTime := clampedStart, endTime := clampedEnd }

/-- The collision predicate as §4.3 of the spec words it, for comparison
with the source's `isColliding`: time overlap (closed) AND overlap of the
half-open level intervals `[level, level + height)` — over integers,
`[a, a + h1)` meets `[b, b + h2)` iff `b < a + h1 ∧ a < b + h2`. -/
def isCollidingSpecHalfOpen (span1 : VisSpan) (bbox1 : SpanBoundingBox)
    (span2 : VisSpan) (bbox2 : SpanBoundingBox) : Bool :=
  isCollidingInAxis span1.startTime span1.endTime span2.startTime span2.endTime &&
    (decide (span2.height_level < span1.height_level + bbox1.height) &&
      decide (span1.height_level < span2.height_level + bbox2.height))

mutual

/-- All `height_level` fields of the subtree are non-negative. -/
def nonnegLevB : VisSpan → Bool
  | .mk _ _ _ _ _ ch _ _ _ h => decide (0 ≤ h) && nonnegLevLB ch

/-- `nonnegLevB` over a sibling group. -/
def nonnegLevLB : List VisSpan → Bool
  | [] => true
  | s :: rest => nonnegLevB s && nonnegLevLB rest

end

/-- Frame relation of the layout pass: `FrameB a b` holds when `b` is `a`
with only `height_level` fields changed — every non-level field equal,
children in the same positions related recursively, every level weakly
increased, and the first child of every sibling group keeping its level
exactly. -/
inductive FrameB : VisSpan → VisSpan → Prop where
  | mk (a b : VisSpan)
      (hid : b.spanId = a.spanId) (hnm : b.name = a.name)
      (hst : b.startTime = a.startTime) (hen : b.endTime = a.endTime)
      (hp : b.parentSpanId = a.parentSpanId) (hev : b.events = a.events)
      (hr : b.resource = a.resource) (hat : b.attributes = a.attributes)
      (hlev : a.height_level ≤ b.height_level)
      (hlen : b.children.length = a.children.length)
      (hck : ∀ (i : Nat) (x y : VisSpan), a.children.get? i = some x →
        b.children.get? i = some y → FrameB x y)
      (hhead : ∀ (x y : VisSpan), a.children.get? 0 = some x →
        b.children.get? 0 = some y → y.height_level = x.height_level) :
      FrameB a b

/-- Occurrences inside a sibling group rendered with cumulative offset
`c` (generalizes `groupOcc`, whose lane roots start at offset 0). -/
def gOccAux (c : Int) (l : List VisSpan) : List Nat → Option (VisSpan × Int)
  | [] => none
  | i :: p =>
    match l.get? i with
    | none => none
    | some r => occAt c r p

/-- The layout invariant of an arranged sibling group: the group members
are pairwise non-colliding (under the source's `isColliding` with their
recomputed subtree boxes), and every member's children form an arranged
group again. -/
inductive NoColGroup : List VisSpan → Prop where
  | mk (l : List VisSpan)
      (hpw : List.Pairwise
        (fun a b => isColliding b (treeBox b) a (treeBox a) = false) l)
      (hch : ∀ s ∈ l, NoColGroup s.children) : NoColGroup l

mutual

/-- Total number of spans in a tree (every node counted). -/
def sizeVis : VisSpan → Nat
  | .mk _ _ _ _ _ ch _ _ _ _ => 1 + sizeVisL ch

/-- Total number of spans in a sibling group's subtrees. -/
def sizeVisL : List VisSpan → Nat
  | [] => 0
  | s :: rest => sizeVis s + sizeVisL rest

end

/-- Node count of the index tree unfolded by `buildVisIdx`. -/
def sizeIdx (flat : List VisSpan) : Nat → Nat → Nat
  | 0, _ => 1
  | f + 1, i => 1 + ((childIdxs flat i).map (sizeIdx flat f)).sum

/-- Number of occurrences of position `j` in the index tree of depth
budget `f` rooted at position `i`. -/
def occursIdx (flat : List VisSpan) : Nat → Nat → Nat → Nat
  | 0, i, j => if i = j then 1 else 0
  | f + 1, i, j =>
    (if i = j then 1 else 0) +
      ((childIdxs flat i).map (fun k => occursIdx flat f k j)).sum

/-- Depth-bounded groundedness of a span's parent chain: position `i`'s
chain of parent links reaches the empty parent id within `d` steps. -/
inductive GroundedD (flat : List VisSpan) : Nat → Nat → Prop where
  | root (i d : Nat) (h : (spanAtIdx flat i).parentSpanId = "") :
      GroundedD flat i d
  | step (i t d : Nat) (ht : t < flat.length)
      (h : (spanAtIdx flat t).spanId = (spanAtIdx flat i).parentSpanId)
      (hg : GroundedD flat t d) : GroundedD flat i (d + 1)

/-! ## Concrete example inputs used by witnesses and counterexamples -/

/-- A root leaf span over `[0, 100]`. -/
def exLeafA : VisSpan := .mk "a" "a" 0 100 "" [] [] ⟨[]⟩ [] 0

/-- A root leaf span over `[50, 150]`, overlapping `exLeafA`. -/
def exLeafB : VisSpan := .mk "b" "b" 50 150 "" [] [] ⟨[]⟩ [] 0

/-- A child span over `[0, 100]` that extends far beyond its parent
`exP1`'s own interval `[0, 10]`. -/
def exC1 : VisSpan := .mk "c1" "c1" 0 100 "p1" [] [] ⟨[]⟩ [] 0

/-- A root span over `[0, 10]` whose only child `exC1` sticks out to 100. -/
def exP1 : VisSpan := .mk "p1" "p1" 0 10 "" [exC1] [] ⟨[]⟩ [] 0

/-- A child span over `[50, 60]`, inside its parent `exP2`. -/
def exC2 : VisSpan := .mk "c2" "c2" 50 60 "p2" [] [] ⟨[]⟩ [] 0

/-- A root span over `[50, 60]` with one child `exC2`; its own interval is
disjoint from `exP1`'s interval but not from `exP1`'s subtree. -/
def exP2 : VisSpan := .mk "p2" "p2" 50 60 "" [exC2] [] ⟨[]⟩ [] 0

/-- A span already sitting at level 1 with the same times as `exLeafA`. -/
def exLeafBLevel1 : VisSpan := .mk "b" "b" 0 100 "" [] [] ⟨[]⟩ [] 1

/-- A navigational state whose window is degenerate
(`startTime = endTime = 2e9`, inside the extrema `[0, 4e9]`) — the shape
reached after re-initializing on a zero-duration payload. -/
def exDegenerateTL : TimelineState :=
  ⟨2000000000, 2000000000, 2000000000, 2000000000, 0, 4000000000, .None, 0, 0⟩

/-- A raw payload holding one orphan span: its parent id "zzz" matches no
span id in the payload. -/
def exOrphanReq : ExportTraceServiceRequest :=
  ⟨[⟨⟨[]⟩, [⟨[⟨"t", "a", "zzz", "a", 0, 10, [], [], []⟩]⟩]⟩]⟩

/-- A raw payload holding two spans whose parent ids form a 2-cycle
(`a`'s parent is `b`, `b`'s parent is `a`); all span ids are distinct. -/
def exCycleReq : ExportTraceServiceRequest :=
  ⟨[⟨⟨[]⟩, [⟨[⟨"t", "a", "b", "a", 0, 10, [], [], []⟩,
              ⟨"t", "b", "a", "b", 0, 10, [], [], []⟩]⟩]⟩]⟩

/-- A raw payload with one root (`a`) and one orphan (`b`, parent
`zzz` absent). -/
def exMixedReq : ExportTraceServiceRequest :=
  ⟨[⟨⟨[]⟩, [⟨[⟨"t", "a", "", "a", 0, 10, [], [], []⟩,
              ⟨"t", "b", "zzz", "b", 0, 10, [], [], []⟩]⟩]⟩]⟩

/-- A raw payload with a root (`a`) and its child (`b`). -/
def exTreeReq : ExportTraceServiceRequest :=
  ⟨[⟨⟨[]⟩, [⟨[⟨"t", "a", "", "a", 0, 100, [], [], []⟩,
              ⟨"t", "b", "a", "b", 10, 20, [], [], []⟩]⟩]⟩]⟩

/-- The positions of the top-level spans (empty parent id), in input
order — the loop that fills `top_level_spans` in `extractVisSpans`. -/
def rootIdxs (flat : List VisSpan) : List Nat :=
  (List.range flat.length).filter fun i => (spanAtIdx flat i).parentSpanId == ""

/-! ## Basic lemmas about the embedding -/

@[simp] theorem VisSpan.spanId_mk (i n : String) (st en : Int) (p : String)
    (c : List VisSpan) (ev : List Event) (r : Resource) (a : List KeyValue)
    (h : Int) : (VisSpan.mk i n st en p c ev r a h).spanId = i := rfl

@[simp] theorem VisSpan.name_mk (i n : String) (st en : Int) (p : String)
    (c : List VisSpan) (ev : List Event) (r : Resource) (a : List KeyValue)
    (h : Int) : (VisSpan.mk i n st en p c ev r a h).name = n := rfl

@[simp] theorem VisSpan.startTime_mk (i n : String) (st en : Int) (p : String)
    (c : List VisSpan) (ev : List Event) (r : Resource) (a : List KeyValue)
    (h : Int) : (VisSpan.mk i n st en p c ev r a h).startTime = st := rfl

@[simp] theorem VisSpan.endTime_mk (i n : String) (st en : Int) (p : String)
    (c : List VisSpan) (ev : List Event) (r : Resource) (a : List KeyValue)
    (h : Int) : (VisSpan.mk i n st en p c ev r a h).endTime = en := rfl

@[simp] theorem VisSpan.parentSpanId_mk (i n : String) (st en : Int) (p : String)
    (c : List VisSpan) (ev : List Event) (r : Resource) (a : List KeyValue)
    (h : Int) : (VisSpan.mk i n st en p c ev r a h).parentSpanId = p := rfl

@[simp] theorem VisSpan.children_mk (i n : String) (st en : Int) (p : String)
    (c : List VisSpan) (ev : List Event) (r : Resource) (a : List KeyValue)
    (h : Int) : (VisSpan.mk i n st en p c ev r a h).children = c := rfl

@[simp] theorem VisSpan.events_mk (i n : String) (st en : Int) (p : String)
    (c : List VisSpan) (ev : List Event) (r : Resource) (a : List KeyValue)
    (h : Int) : (VisSpan.mk i n st en p c ev r a h).events = ev := rfl

@[simp] theorem VisSpan.resource_mk (i n : String) (st en : Int) (p : String)
    (c : List VisSpan) (ev : List Event) (r : Resource) (a : List KeyValue)
    (h : Int) : (VisSpan.mk i n st en p c ev r a h).resource = r := rfl

@[simp] theorem VisSpan.attributes_mk (i n : String) (st en : Int) (p : String)
    (c : List VisSpan) (ev : List Event) (r : Resource) (a : List KeyValue)
    (h : Int) : (VisSpan.mk i n st en p c ev r a h).attributes = a := rfl

@[simp] theorem VisSpan.height_level_mk (i n : String) (st en : Int) (p : String)
    (c : List VisSpan) (ev : List Event) (r : Resource) (a : List KeyValue)
    (h : Int) : (VisSpan.mk i n st en p c ev r a h).height_level = h := rfl

@[simp] theorem VisSpan.withLevel_height_level (s : VisSpan) (h : Int) :
    (s.withLevel h).height_level = h := by cases s; rfl

@[simp] theorem VisSpan.withLevel_startTime (s : VisSpan) (h : Int) :
    (s.withLevel h).startTime = s.startTime := by cases s; rfl

@[simp] theorem VisSpan.withLevel_endTime (s : VisSpan) (h : Int) :
    (s.withLevel h).endTime = s.endTime := by cases s; rfl

@[simp] theorem VisSpan.withLevel_children (s : VisSpan) (h : Int) :
    (s.withLevel h).children = s.children := by cases s; rfl

@[simp] theorem VisSpan.withLevel_spanId (s : VisSpan) (h : Int) :
    (s.withLevel h).spanId = s.spanId := by cases s; rfl

@[simp] theorem VisSpan.withLevel_name (s : VisSpan) (h : Int) :
    (s.withLevel h).name = s.name := by cases s; rfl

@[simp] theorem VisSpan.withLevel_parentSpanId (s : VisSpan) (h : Int) :
    (s.withLevel h).parentSpanId = s.parentSpanId := by cases s; rfl

@[simp] theorem VisSpan.withLevel_events (s : VisSpan) (h : Int) :
    (s.withLevel h).events = s.events := by cases s; rfl

@[simp] theorem VisSpan.withLevel_resource (s : VisSpan) (h : Int) :
    (s.withLevel h).resource = s.resource := by cases s; rfl

@[simp] theorem VisSpan.withLevel_attributes (s : VisSpan) (h : Int) :
    (s.withLevel h).attributes = s.attributes := by cases s; rfl

theorem VisSpan.withLevel_self (s : VisSpan) : s.withLevel s.height_level = s := by
  cases s; rfl

/-- Prop form of the closed-interval axis test. -/
theorem isCollidingInAxis_iff (b1 e1 b2 e2 : Int) :
    isCollidingInAxis b1 e1 b2 e2 = true ↔
      ((b1 ≤ b2 ∧ b2 ≤ e1) ∨ (b1 ≤ e2 ∧ e2 ≤ e1) ∨
        (b2 ≤ b1 ∧ b1 ≤ e2) ∨ (b2 ≤ e1 ∧ e1 ≤ e2)) := by
  simp only [isCollidingInAxis, isBetween, Bool.or_eq_true, Bool.and_eq_true,
    decide_eq_true_eq]
  tauto

/-- On proper intervals the closed axis test is plain interval
intersection. -/
theorem isCollidingInAxis_proper (b1 e1 b2 e2 : Int) (h1 : b1 ≤ e1)
    (h2 : b2 ≤ e2) :
    isCollidingInAxis b1 e1 b2 e2 = true ↔ (b2 ≤ e1 ∧ b1 ≤ e2) := by
  rw [isCollidingInAxis_iff]; omega

/-- The axis test is symmetric. -/
theorem isCollidingInAxis_symm (b1 e1 b2 e2 : Int) :
    isCollidingInAxis b1 e1 b2 e2 = isCollidingInAxis b2 e2 b1 e1 := by
  rw [Bool.eq_iff_iff, isCollidingInAxis_iff, isCollidingInAxis_iff]
  tauto

/-- `isColliding` is the conjunction of the time test and the closed
level test. -/
theorem isColliding_eq (s1 : VisSpan) (b1 : SpanBoundingBox) (s2 : VisSpan)
    (b2 : SpanBoundingBox) :
    isColliding s1 b1 s2 b2 =
      (isCollidingInAxis s1.startTime s1.endTime s2.startTime s2.endTime &&
        isCollidingInAxis s1.height_level (s1.height_level + b1.height)
          s2.height_level (s2.height_level + b2.height)) := by
  unfold isColliding
  rcases Bool.eq_false_or_eq_true
      (isCollidingInAxis s1.startTime s1.endTime s2.startTime s2.endTime) with h | h <;>
    simp [h]

/-! ## Lemmas about the bump loop -/

theorem bumpLoop_ge (p : Int → Bool) : ∀ (n : Nat) (h : Int), h ≤ bumpLoop p h n := by
  intro n
  induction n with
  | zero => intro h; simp [bumpLoop]
  | succ n ih =>
    intro h
    simp only [bumpLoop]
    split
    · exact le_trans (by omega) (ih (h + 1))
    · exact le_refl h

theorem bumpLoop_false (p : Int → Bool) :
    ∀ (n : Nat) (h : Int), p (h + n) = false → p (bumpLoop p h n) = false := by
  intro n
  induction n with
  | zero => intro h hp; simpa [bumpLoop] using hp
  | succ n ih =>
    intro h hp
    simp only [bumpLoop]
    split
    · exact ih (h + 1) (by rw [show h + 1 + (n : Int) = h + (n + 1 : Nat) by push_cast; ring]; exact hp)
    · next hph => exact Bool.eq_false_iff.mpr hph

theorem bumpLoop_min (p : Int → Bool) :
    ∀ (n : Nat) (h k : Int), h ≤ k → k < bumpLoop p h n → p k = true := by
  intro n
  induction n with
  | zero => intro h k hk hlt; simp [bumpLoop] at hlt; omega
  | succ n ih =>
    intro h k hk hlt
    simp only [bumpLoop] at hlt
    by_cases hph : p h = true
    · rw [hph] at hlt
      simp at hlt
      rcases eq_or_lt_of_le hk with heq | hgt
      · exact heq ▸ hph
      · exact ih (h + 1) k (by omega) hlt
    · rw [Bool.not_eq_true] at hph
      rw [hph] at hlt
      simp at hlt
      omega

theorem foldl_max_ge_init {α : Type} (f : α → Int) :
    ∀ (l : List α) (init : Int), init ≤ l.foldl (fun m x => max m (f x)) init := by
  intro l
  induction l with
  | nil => intro init; simp
  | cons x xs ih =>
    intro init
    simp only [List.foldl_cons]
    exact le_trans (le_max_left _ _) (ih (max init (f x)))

theorem foldl_max_ge_mem {α : Type} (f : α → Int) :
    ∀ (l : List α) (init : Int),
      ∀ x ∈ l, f x ≤ l.foldl (fun m x => max m (f x)) init := by
  intro l
  induction l with
  | nil => intro init x hx; simp at hx
  | cons y ys ih =>
    intro init x hx
    rcases List.mem_cons.mp hx with rfl | hmem
    · simp only [List.foldl_cons]
      exact le_trans (le_max_right _ _) (foldl_max_ge_init f ys _)
    · exact ih _ x hmem

theorem foldl_max_attained {α : Type} (f : α → Int) :
    ∀ (l : List α) (init : Int),
      l.foldl (fun m x => max m (f x)) init = init ∨
        ∃ x ∈ l, l.foldl (fun m x => max m (f x)) init = f x := by
  intro l
  induction l with
  | nil => intro init; left; rfl
  | cons y ys ih =>
    intro init
    simp only [List.foldl_cons]
    rcases ih (max init (f y)) with h | ⟨x, hx, h⟩
    · rcases max_cases init (f y) with ⟨hm, -⟩ | ⟨hm, -⟩
      · left; rw [h, hm]
      · right; exact ⟨y, List.mem_cons_self y ys, by rw [h, hm]⟩
    · right; exact ⟨x, List.mem_cons_of_mem y hx, h⟩

theorem foldl_min_le_init {α : Type} (f : α → Int) :
    ∀ (l : List α) (init : Int), l.foldl (fun m x => min m (f x)) init ≤ init := by
  intro l
  induction l with
  | nil => intro init; simp
  | cons x xs ih =>
    intro init
    simp only [List.foldl_cons]
    exact le_trans (ih (min init (f x))) (min_le_left _ _)

theorem foldl_min_le_mem {α : Type} (f : α → Int) :
    ∀ (l : List α) (init : Int),
      ∀ x ∈ l, l.foldl (fun m x => min m (f x)) init ≤ f x := by
  intro l
  induction l with
  | nil => intro init x hx; simp at hx
  | cons y ys ih =>
    intro init x hx
    rcases List.mem_cons.mp hx with rfl | hmem
    · simp only [List.foldl_cons]
      exact le_trans (foldl_min_le_init f ys _) (min_le_right _ _)
    · exact ih _ x hmem

theorem foldl_min_attained {α : Type} (f : α → Int) :
    ∀ (l : List α) (init : Int),
      l.foldl (fun m x => min m (f x)) init = init ∨
        ∃ x ∈ l, l.foldl (fun m x => min m (f x)) init = f x := by
  intro l
  induction l with
  | nil => intro init; left; rfl
  | cons y ys ih =>
    intro init
    simp only [List.foldl_cons]
    rcases ih (min init (f y)) with h | ⟨x, hx, h⟩
    · rcases min_cases init (f y) with ⟨hm, -⟩ | ⟨hm, -⟩
      · left; rw [h, hm]
      · right; exact ⟨y, List.mem_cons_self y ys, by rw [h, hm]⟩
    · right; exact ⟨x, List.mem_cons_of_mem y hx, h⟩

theorem maxEndLevel_spec (done : List (VisSpan × SpanBoundingBox)) :
    ∀ pb ∈ done, pb.1.height_level + pb.2.height ≤ maxEndLevel done :=
  fun pb hpb => foldl_max_ge_mem (fun pb => pb.1.height_level + pb.2.height) done 0 pb hpb

/-- Above `maxEndLevel done` the candidate collides with nothing. -/
theorem collidesAt_above (done : List (VisSpan × SpanBoundingBox)) (s : VisSpan)
    (b : SpanBoundingBox) (h : Int) (hb : 0 ≤ b.height)
    (hd : ∀ pb ∈ done, 0 ≤ pb.2.height) (hh : maxEndLevel done < h) :
    collidesAt done s b h = false := by
  unfold collidesAt
  rw [List.any_eq_false]
  intro pb hpb
  have h1 := maxEndLevel_spec done pb hpb
  have h2 := hd pb hpb
  intro hc
  rw [isColliding_eq, Bool.and_eq_true] at hc
  obtain ⟨-, hlev⟩ := hc
  rw [VisSpan.withLevel_height_level, isCollidingInAxis_iff] at hlev
  omega

/-- The level `bumpOne` assigns. -/
theorem bumpOne_height (done : List (VisSpan × SpanBoundingBox)) (s : VisSpan)
    (b : SpanBoundingBox) :
    (bumpOne done s b).height_level =
      bumpLoop (collidesAt done s b) s.height_level
        (maxEndLevel done + 1 - s.height_level).toNat := by
  simp [bumpOne]

/-- What the insert-and-bump loop achieves for one span: the final level
is at least the initial one, collides with no earlier sibling, and every
level between the initial one and the final one collides with some earlier
sibling (so the final level is exactly the first non-colliding one reached
by unit increments). -/
theorem bumpOne_spec (done : List (VisSpan × SpanBoundingBox)) (s : VisSpan)
    (b : SpanBoundingBox) (hb : 0 ≤ b.height)
    (hd : ∀ pb ∈ done, 0 ≤ pb.2.height) :
    s.height_level ≤ (bumpOne done s b).height_level ∧
      collidesAt done s b (bumpOne done s b).height_level = false ∧
      (∀ k, s.height_level ≤ k → k < (bumpOne done s b).height_level →
        collidesAt done s b k = true) := by
  rw [bumpOne_height]
  refine ⟨bumpLoop_ge _ _ _, ?_, fun k hk hlt => bumpLoop_min _ _ _ _ hk hlt⟩
  apply bumpLoop_false
  apply collidesAt_above done s b _ hb hd
  have := Int.self_le_toNat (maxEndLevel done + 1 - s.height_level)
  omega

/-- `bumpOne` against an empty prefix keeps the level unchanged. -/
theorem bumpOne_nil (s : VisSpan) (b : SpanBoundingBox) :
    bumpOne [] s b = s := by
  have hfalse : ∀ h : Int, collidesAt [] s b h = false := fun h => by simp [collidesAt]
  have hloop : ∀ (n : Nat) (h : Int), bumpLoop (collidesAt [] s b) h n = h := by
    intro n
    induction n with
    | zero => intro h; rfl
    | succ n ih => intro h; simp [bumpLoop, hfalse]
  simp [bumpOne, hloop, VisSpan.withLevel_self]

/-! ## Lemmas about the placement pass (`bumpAll`) -/

/-- One step of the placement fold of `arrangeSpans` (named for lemmas). -/
def placeStep (done : List (VisSpan × SpanBoundingBox))
    (pb : VisSpan × SpanBoundingBox) : List (VisSpan × SpanBoundingBox) :=
  done ++ [(bumpOne done pb.1 pb.2, pb.2)]

theorem bumpAll_eq_foldl (pairs : List (VisSpan × SpanBoundingBox)) :
    bumpAll pairs = pairs.foldl placeStep [] := rfl

theorem arrangeKids_eq_map : ∀ l : List VisSpan, arrangeKids l = l.map arrangeSpan := by
  intro l
  induction l with
  | nil => rfl
  | cons s rest ih => simp [arrangeKids, ih]

theorem collidesAt_eq_false_iff (done : List (VisSpan × SpanBoundingBox))
    (s : VisSpan) (b : SpanBoundingBox) (h : Int) :
    collidesAt done s b h = false ↔
      ∀ pb ∈ done, isColliding (s.withLevel h) b pb.1 pb.2 = false := by
  simp [collidesAt, List.any_eq_false]

theorem bumpOne_eq_withLevel (done : List (VisSpan × SpanBoundingBox))
    (s : VisSpan) (b : SpanBoundingBox) :
    bumpOne done s b = s.withLevel ((bumpOne done s b).height_level) := by
  simp [bumpOne]

theorem bumpOne_level_ge (done : List (VisSpan × SpanBoundingBox))
    (s : VisSpan) (b : SpanBoundingBox) :
    s.height_level ≤ (bumpOne done s b).height_level := by
  rw [bumpOne_height]
  exact bumpLoop_ge _ _ _

theorem bumpOne_not_colliding (done : List (VisSpan × SpanBoundingBox))
    (s : VisSpan) (b : SpanBoundingBox) (hb : 0 ≤ b.height)
    (hd : ∀ pb ∈ done, 0 ≤ pb.2.height) :
    ∀ pb ∈ done, isColliding (bumpOne done s b) b pb.1 pb.2 = false := by
  intro pb hpb
  have h := (bumpOne_spec done s b hb hd).2.1
  rw [collidesAt_eq_false_iff] at h
  have := h pb hpb
  rwa [← bumpOne_eq_withLevel] at this

theorem foldl_placeStep_pairwise :
    ∀ (rest done : List (VisSpan × SpanBoundingBox)),
      (∀ pb ∈ done, 0 ≤ pb.2.height) → (∀ pb ∈ rest, 0 ≤ pb.2.height) →
      List.Pairwise (fun a b => isColliding b.1 b.2 a.1 a.2 = false) done →
      List.Pairwise (fun a b => isColliding b.1 b.2 a.1 a.2 = false)
          (rest.foldl placeStep done) ∧
        (∀ pb ∈ rest.foldl placeStep done, 0 ≤ pb.2.height) := by
  intro rest
  induction rest with
  | nil => intro done hd _ hp; exact ⟨hp, hd⟩
  | cons pb rest ih =>
    intro done hd hr hp
    simp only [List.foldl_cons]
    have hdone' : ∀ qb ∈ placeStep done pb, 0 ≤ qb.2.height := by
      intro qb hqb
      rcases List.mem_append.mp hqb with hmem | hmem
      · exact hd qb hmem
      · rcases List.mem_singleton.mp hmem with rfl
        exact hr pb (List.mem_cons_self pb rest)
    have hpair' : List.Pairwise (fun a b => isColliding b.1 b.2 a.1 a.2 = false)
        (placeStep done pb) := by
      unfold placeStep
      rw [List.pairwise_append]
      refine ⟨hp, List.pairwise_singleton _ _, ?_⟩
      intro a ha x hx
      rcases List.mem_singleton.mp hx with rfl
      exact bumpOne_not_colliding done pb.1 pb.2
        (hr pb (List.mem_cons_self pb rest)) hd a ha
    exact ih (placeStep done pb) hdone'
      (fun qb hqb => hr qb (List.mem_cons_of_mem pb hqb)) hpair'

/-- After the placement pass no pair of siblings collides, and the boxes'
heights are unchanged. -/
theorem bumpAll_pairwise (pairs : List (VisSpan × SpanBoundingBox))
    (hh : ∀ pb ∈ pairs, 0 ≤ pb.2.height) :
    List.Pairwise (fun a b => isColliding b.1 b.2 a.1 a.2 = false)
      (bumpAll pairs) := by
  rw [bumpAll_eq_foldl]
  exact (foldl_placeStep_pairwise pairs [] (by simp) hh (List.Pairwise.nil)).1

/-- How each output of the placement pass relates to its input: same box,
the span is the input span with a (weakly raised) new level. -/
def BumpRel (pb out : VisSpan × SpanBoundingBox) : Prop :=
  out.2 = pb.2 ∧ pb.1.height_level ≤ out.1.height_level ∧
    out.1 = pb.1.withLevel out.1.height_level

theorem bumpRel_of_bumpOne (done : List (VisSpan × SpanBoundingBox))
    (pb : VisSpan × SpanBoundingBox) :
    BumpRel pb (bumpOne done pb.1 pb.2, pb.2) :=
  ⟨rfl, bumpOne_level_ge done pb.1 pb.2, bumpOne_eq_withLevel done pb.1 pb.2⟩

theorem foldl_placeStep_suffix :
    ∀ (rest done : List (VisSpan × SpanBoundingBox)),
      ∃ suffix, rest.foldl placeStep done = done ++ suffix ∧
        List.Forall₂ BumpRel rest suffix := by
  intro rest
  induction rest with
  | nil => intro done; exact ⟨[], by simp, List.Forall₂.nil⟩
  | cons pb rest ih =>
    intro done
    obtain ⟨suffix, heq, hrel⟩ := ih (placeStep done pb)
    refine ⟨(bumpOne done pb.1 pb.2, pb.2) :: suffix, ?_, ?_⟩
    · simp only [List.foldl_cons]
      rw [heq]
      simp [placeStep]
    · exact List.Forall₂.cons (bumpRel_of_bumpOne done pb) hrel

theorem bumpAll_forall₂ (pairs : List (VisSpan × SpanBoundingBox)) :
    List.Forall₂ BumpRel pairs (bumpAll pairs) := by
  obtain ⟨suffix, heq, hrel⟩ := foldl_placeStep_suffix pairs []
  rw [bumpAll_eq_foldl, heq, List.nil_append]
  exact hrel

/-- The first sibling of a group is placed unchanged (it has nothing to
collide with). -/
theorem bumpAll_cons_head (pb : VisSpan × SpanBoundingBox)
    (rest : List (VisSpan × SpanBoundingBox)) :
    ∃ suffix, bumpAll (pb :: rest) = pb :: suffix ∧
      List.Forall₂ BumpRel rest suffix := by
  obtain ⟨suffix, heq, hrel⟩ := foldl_placeStep_suffix rest (placeStep [] pb)
  refine ⟨suffix, ?_, hrel⟩
  rw [bumpAll_eq_foldl, List.foldl_cons, heq]
  simp [placeStep, bumpOne_nil]

theorem bumpAll_length (pairs : List (VisSpan × SpanBoundingBox)) :
    (bumpAll pairs).length = pairs.length :=
  ((bumpAll_forall₂ pairs).length_eq).symm

/-! ## `treeBox` recomputes the boxes of an arranged forest -/

theorem treeBox_leaf (i nm : String) (st en : Int) (p : String) (ev : List Event)
    (r : Resource) (a : List KeyValue) (lv : Int) :
    treeBox (.mk i nm st en p [] ev r a lv) = ⟨st, en, 1⟩ := rfl

theorem treeBox_cons (i nm : String) (st en : Int) (p : String) (c : VisSpan)
    (cs : List VisSpan) (ev : List Event) (r : Resource) (a : List KeyValue)
    (lv : Int) :
    treeBox (.mk i nm st en p (c :: cs) ev r a lv) =
      ⟨min st (finalBox (treeBoxKids (c :: cs))).start_time,
        max en (finalBox (treeBoxKids (c :: cs))).end_time,
        (finalBox (treeBoxKids (c :: cs))).height + 1⟩ := rfl

theorem treeBox_withLevel (s : VisSpan) (h : Int) :
    treeBox (s.withLevel h) = treeBox s := by
  cases s with
  | mk i nm st en p ch ev r a lv => cases ch <;> rfl

theorem treeBoxKids_eq_map : ∀ l : List VisSpan,
    treeBoxKids l = l.map fun s => (s, treeBox s) := by
  intro l
  induction l with
  | nil => rfl
  | cons s rest ih => simp [treeBoxKids, ih]

theorem treeBoxKids_of_matching :
    ∀ out : List (VisSpan × SpanBoundingBox),
      (∀ o ∈ out, o.2 = treeBox o.1) → treeBoxKids (out.map Prod.fst) = out := by
  intro out
  induction out with
  | nil => intro _; rfl
  | cons o rest ih =>
    intro h
    simp only [List.map_cons, treeBoxKids]
    rw [ih (fun o ho => h o (List.mem_cons_of_mem _ ho)),
      ← h o (List.mem_cons_self o rest)]

theorem forall₂_mem_right {α β : Type} {R : α → β → Prop} :
    ∀ {l1 : List α} {l2 : List β}, List.Forall₂ R l1 l2 →
      ∀ b ∈ l2, ∃ a ∈ l1, R a b := by
  intro l1 l2 h
  induction h with
  | nil => intro b hb; simp at hb
  | cons hr _ ih =>
    intro b hb
    rcases List.mem_cons.mp hb with rfl | hmem
    · exact ⟨_, List.mem_cons_self _ _, hr⟩
    · obtain ⟨a, ha, hab⟩ := ih b hmem
      exact ⟨a, List.mem_cons_of_mem _ ha, hab⟩

/-- The boxes `arrangeSpan`/`arrangeSpans` compute are exactly the boxes
recomputable from the arranged trees. -/
theorem arrange_box_matches :
    ∀ n : Nat,
      (∀ s : VisSpan, sizeOf s ≤ n →
        (arrangeSpan s).2 = treeBox (arrangeSpan s).1) ∧
      (∀ l : List VisSpan, sizeOf l ≤ n →
        ∀ o ∈ bumpAll (arrangeKids l), o.2 = treeBox o.1) := by
  intro n
  induction n using Nat.strong_induction_on with
  | _ n ih =>
    have partB : ∀ l : List VisSpan, sizeOf l ≤ n →
        ∀ o ∈ bumpAll (arrangeKids l), o.2 = treeBox o.1 := by
      intro l hl o ho
      obtain ⟨pb, hpb, hrel⟩ := forall₂_mem_right (bumpAll_forall₂ (arrangeKids l)) o ho
      rw [arrangeKids_eq_map] at hpb
      obtain ⟨x, hx, rfl⟩ := List.mem_map.mp hpb
      have hsz : sizeOf x < n := lt_of_lt_of_le (List.sizeOf_lt_of_mem hx) hl
      have hA := (ih (sizeOf x) hsz).1 x (le_refl _)
      obtain ⟨hbox, -, hspan⟩ := hrel
      rw [hbox, hspan, treeBox_withLevel]
      exact hA
    refine ⟨?_, partB⟩
    intro s hs
    cases s with
    | mk i nm st en p ch ev r a lv =>
      cases ch with
      | nil => rfl
      | cons c cs =>
        have hsz : sizeOf (c :: cs) < n := by
          have : sizeOf (c :: cs) < sizeOf (VisSpan.mk i nm st en p (c :: cs) ev r a lv) := by
            simp [VisSpan.mk.sizeOf_spec]; omega
          omega
        have hmatch := (ih (sizeOf (c :: cs)) hsz).2 (c :: cs) (le_refl _)
        simp only [arrangeSpan]
        have hkids : treeBoxKids ((bumpAll (arrangeKids (c :: cs))).map Prod.fst) =
            bumpAll (arrangeKids (c :: cs)) := treeBoxKids_of_matching _ hmatch
        have hne : (bumpAll (arrangeKids (c :: cs))).map Prod.fst ≠ [] := by
          intro hemp
          have hlen := bumpAll_length (arrangeKids (c :: cs))
          simp only [List.map_eq_nil_iff] at hemp
          rw [hemp, arrangeKids_eq_map] at hlen
          simp at hlen
        obtain ⟨c', cs', hcons⟩ :
            ∃ c' cs', (bumpAll (arrangeKids (c :: cs))).map Prod.fst = c' :: cs' := by
          rcases hlist : (bumpAll (arrangeKids (c :: cs))).map Prod.fst with _ | ⟨c', cs'⟩
          · exact absurd hlist hne
          · exact ⟨c', cs', rfl⟩
        rw [hcons, treeBox_cons, ← hcons, hkids]

theorem arrangeSpan_box (s : VisSpan) :
    (arrangeSpan s).2 = treeBox (arrangeSpan s).1 :=
  (arrange_box_matches (sizeOf s)).1 s (le_refl _)

theorem arrangeKids_boxes (l : List VisSpan) :
    ∀ o ∈ bumpAll (arrangeKids l), o.2 = treeBox o.1 :=
  (arrange_box_matches (sizeOf l)).2 l (le_refl _)

/-- The three components of the final-box fold evolve independently. -/
theorem foldl_box_components :
    ∀ (l : List (VisSpan × SpanBoundingBox)) (init : SpanBoundingBox),
      l.foldl (fun fb pb =>
        (⟨min fb.start_time pb.2.start_time, max fb.end_time pb.2.end_time,
          max fb.height (pb.1.height_level + pb.2.height)⟩ : SpanBoundingBox)) init =
      ⟨l.foldl (fun m pb => min m pb.2.start_time) init.start_time,
        l.foldl (fun m pb => max m pb.2.end_time) init.end_time,
        l.foldl (fun m pb => max m (pb.1.height_level + pb.2.height)) init.height⟩ := by
  intro l
  induction l with
  | nil => intro init; rfl
  | cons pb rest ih => intro init; simp only [List.foldl_cons]; rw [ih]

theorem finalBox_cons_eq (pb0 : VisSpan × SpanBoundingBox)
    (rest : List (VisSpan × SpanBoundingBox)) :
    finalBox (pb0 :: rest) =
      ⟨(pb0 :: rest).foldl (fun m pb => min m pb.2.start_time) pb0.2.start_time,
        (pb0 :: rest).foldl (fun m pb => max m pb.2.end_time) pb0.2.end_time,
        (pb0 :: rest).foldl (fun m pb => max m (pb.1.height_level + pb.2.height))
          pb0.2.height⟩ := by
  show (pb0 :: rest).foldl _ pb0.2 = _
  rw [foldl_box_components]

/-- Every subtree box has height at least 1. -/
theorem treeBox_height_pos_aux :
    ∀ n (s : VisSpan), sizeOf s ≤ n → 1 ≤ (treeBox s).height := by
  intro n
  induction n using Nat.strong_induction_on with
  | _ n ih =>
    intro s hs
    cases s with
    | mk i nm st en p ch ev r a lv =>
      cases ch with
      | nil => simp [treeBox_leaf]
      | cons c cs =>
        rw [treeBox_cons]
        have hcsz : sizeOf c < sizeOf (VisSpan.mk i nm st en p (c :: cs) ev r a lv) := by
          have h1 := List.sizeOf_lt_of_mem (List.mem_cons_self c cs)
          simp [VisSpan.mk.sizeOf_spec]
          omega
        have h1 : 1 ≤ (treeBox c).height :=
          ih (sizeOf c) (by omega) c (le_refl _)
        have : treeBoxKids (c :: cs) = (c, treeBox c) :: treeBoxKids cs := rfl
        rw [this, finalBox_cons_eq]
        have h2 := foldl_max_ge_init
          (fun pb : VisSpan × SpanBoundingBox => pb.1.height_level + pb.2.height)
          ((c, treeBox c) :: treeBoxKids cs) (treeBox c).height
        simp only []
        omega

theorem treeBox_height_pos (s : VisSpan) : 1 ≤ (treeBox s).height :=
  treeBox_height_pos_aux (sizeOf s) s (le_refl _)

theorem arrangeSpan_box_height_pos (s : VisSpan) :
    1 ≤ (arrangeSpan s).2.height := by
  rw [arrangeSpan_box]; exact treeBox_height_pos _

/-! ## Claim C4 — sibling collision rule -/

/-- C4 (amended): in the insert-and-bump loop of `arrangeSpans`, two
siblings collide if and only if their time intervals overlap (closed
test) AND their CLOSED level intervals `[level, level + box.height]`
overlap; on any collision the later sibling's level is incremented by 1
and re-tested against all earlier siblings from scratch, so the level the
loop assigns is the first level, counting up from the initial one, that
collides with no earlier sibling — in particular the loop terminates on
every input. -/
theorem c4_sibling_collision_rule :
    (∀ (s1 : VisSpan) (b1 : SpanBoundingBox) (s2 : VisSpan) (b2 : SpanBoundingBox),
        0 ≤ b1.height → 0 ≤ b2.height →
        (isColliding s1 b1 s2 b2 = true ↔
          isCollidingInAxis s1.startTime s1.endTime s2.startTime s2.endTime = true ∧
            s2.height_level ≤ s1.height_level + b1.height ∧
            s1.height_level ≤ s2.height_level + b2.height)) ∧
    (∀ (done : List (VisSpan × SpanBoundingBox)) (s : VisSpan) (b : SpanBoundingBox),
        0 ≤ b.height → (∀ pb ∈ done, 0 ≤ pb.2.height) →
        s.height_level ≤ (bumpOne done s b).height_level ∧
          collidesAt done s b (bumpOne done s b).height_level = false ∧
          (∀ k, s.height_level ≤ k → k < (bumpOne done s b).height_level →
            collidesAt done s b k = true)) := by
  constructor
  · intro s1 b1 s2 b2 hb1 hb2
    rw [isColliding_eq, Bool.and_eq_true]
    constructor
    · rintro ⟨ht, hl⟩
      refine ⟨ht, ?_⟩
      rwa [isCollidingInAxis_proper _ _ _ _ (by omega) (by omega)] at hl
    · rintro ⟨ht, hl⟩
      refine ⟨ht, ?_⟩
      rw [isCollidingInAxis_proper _ _ _ _ (by omega) (by omega)]
      exact hl
  · intro done s b hb hd
    exact bumpOne_spec done s b hb hd

/-- Witness for C4: applying the loop part at a concrete sibling pair:
`exLeafB` (times `[50, 150]`) is bumped above `exLeafA`'s placed box and
ends at a level colliding with nothing. -/
theorem c4_sibling_collision_rule_witness :
    collidesAt [(exLeafA, ⟨0, 100, 1⟩)] exLeafB ⟨50, 150, 1⟩
      (bumpOne [(exLeafA, ⟨0, 100, 1⟩)] exLeafB ⟨50, 150, 1⟩).height_level = false :=
  (c4_sibling_collision_rule.2 [(exLeafA, ⟨0, 100, 1⟩)] exLeafB ⟨50, 150, 1⟩
    (by decide)
    (fun pb hpb => by
      rcases List.mem_singleton.mp hpb with rfl
      decide)).2.1

/-- Counterexample to C4 as stated: the source's level test is closed, not
half-open.  Two same-time spans on adjacent rows (levels 0 and 1, box
heights 1) have disjoint half-open level intervals `[0,1)` and `[1,2)`,
so under the claim's rule they do not collide — yet `isColliding` reports
a collision, and consequently `arrangeSpans` on two fresh overlapping
leaves pushes the second one to level 2 (one empty row between them),
not to level 1 as the half-open rule would predict. -/
theorem c4_counterexample :
    isColliding exLeafA ⟨0, 100, 1⟩ exLeafBLevel1 ⟨0, 100, 1⟩ = true ∧
      isCollidingSpecHalfOpen exLeafA ⟨0, 100, 1⟩ exLeafBLevel1 ⟨0, 100, 1⟩ = false ∧
      ((arrangeSpans [exLeafA, exLeafB]).1.map VisSpan.height_level = [0, 2]) := by
  refine ⟨by decide, by decide, by decide⟩

/-! ## Claim C6 — screen-map round trip -/

/-- C6: for a window with `endTime ≠ startTime` and width `w ≠ 0`,
`screenToTime` inverts `timeToScreen` exactly over the rationals, for
every `t` in the window. -/
theorem c6_screen_map_round_trip (tl : TimelineState) (w t : Rat)
    (hne : tl.endTime ≠ tl.startTime) (hw : w ≠ 0)
    (_hlo : tl.startTime ≤ t) (_hhi : t ≤ tl.endTime) :
    screenToTime (timeToScreen t tl w) tl w = t := by
  unfold screenToTime timeToScreen
  have hd : tl.endTime - tl.startTime ≠ 0 := sub_ne_zero.mpr hne
  field_simp
  ring

/-- Witness for C6 at the constructor's default window, `w = 100`,
`t = 2e9`. -/
theorem c6_screen_map_round_trip_witness :
    screenToTime (timeToScreen 2000000000 TimelineState.init 100)
      TimelineState.init 100 = 2000000000 :=
  c6_screen_map_round_trip TimelineState.init 100 2000000000
    (by norm_num [TimelineState.init]) (by norm_num)
    (by norm_num [TimelineState.init]) (by norm_num [TimelineState.init])

/-! ## Claim C7 — zoom clamp -/

/-- C7 (amended): a wheel-zoom event from a state whose navigational
window is non-degenerate (`endTime ≠ startTime`) with a non-zero
timeline width stores a window contained in the data extrema: the
handler succeeds, the new `startTime` is at least `minStartTime`, the
new `endTime` is at most `maxEndTime`, and hence every time inside the
new window lies inside `[minStartTime, maxEndTime]`.  (At a degenerate
window or zero width the division by zero the spec flags in §7 makes
the handler store a non-finite window instead.) -/
theorem c7_zoom_clamp_nondegenerate (tl : TimelineState) (mouseX deltaY w : Rat)
    (hne : tl.endTime ≠ tl.startTime) (hw : w ≠ 0) :
    (timelineScrollHandler tl mouseX deltaY w).isSome = true ∧
      ∀ tl', timelineScrollHandler tl mouseX deltaY w = some tl' →
        tl.minStartTime ≤ tl'.startTime ∧ tl'.endTime ≤ tl.maxEndTime ∧
        (∀ t : Rat, tl'.startTime ≤ t → t ≤ tl'.endTime →
          tl.minStartTime ≤ t ∧ t ≤ tl.maxEndTime) := by
  have hcl : tl.endTime - tl.startTime ≠ 0 := sub_ne_zero.mpr hne
  have heq : timelineScrollHandler tl mouseX deltaY w =
      some { tl with
        startTime := max tl.minStartTime
          (tl.startTime + mouseX / w * (tl.endTime - tl.startTime) -
            (tl.startTime + mouseX / w * (tl.endTime - tl.startTime) -
                tl.startTime) *
              ((tl.endTime - tl.startTime) * (1 + deltaY * (1 / 1000))) /
              (tl.endTime - tl.startTime)),
        endTime := min tl.maxEndTime
          (tl.startTime + mouseX / w * (tl.endTime - tl.startTime) -
            (tl.startTime + mouseX / w * (tl.endTime - tl.startTime) -
                tl.startTime) *
              ((tl.endTime - tl.startTime) * (1 + deltaY * (1 / 1000))) /
              (tl.endTime - tl.startTime) +
            (tl.endTime - tl.startTime) * (1 + deltaY * (1 / 1000))) } := by
    unfold timelineScrollHandler screenToTimeJs jsDiv
    rw [if_neg hw]
    simp only [Option.map_some', Option.some_bind]
    rw [if_neg hcl]
    rfl
  rw [heq]
  refine ⟨rfl, ?_⟩
  intro tl' h
  obtain rfl := (Option.some.inj h).symm
  have hs : tl.minStartTime ≤ max tl.minStartTime
      (tl.startTime + mouseX / w * (tl.endTime - tl.startTime) -
        (tl.startTime + mouseX / w * (tl.endTime - tl.startTime) -
            tl.startTime) *
          ((tl.endTime - tl.startTime) * (1 + deltaY * (1 / 1000))) /
          (tl.endTime - tl.startTime)) := le_max_left _ _
  have he : min tl.maxEndTime
      (tl.startTime + mouseX / w * (tl.endTime - tl.startTime) -
        (tl.startTime + mouseX / w * (tl.endTime - tl.startTime) -
            tl.startTime) *
          ((tl.endTime - tl.startTime) * (1 + deltaY * (1 / 1000))) /
          (tl.endTime - tl.startTime) +
        (tl.endTime - tl.startTime) * (1 + deltaY * (1 / 1000))) ≤
      tl.maxEndTime := min_le_left _ _
  exact ⟨hs, he, fun t ht1 ht2 => ⟨le_trans hs ht1, le_trans ht2 he⟩⟩

/-- Witness for C7 (amended) at the default state (window `[1e9, 3e9]`),
cursor at 0, `deltaY = 0`, width 100: the handler succeeds. -/
theorem c7_zoom_clamp_nondegenerate_witness :
    (timelineScrollHandler TimelineState.init 0 0 100).isSome = true :=
  (c7_zoom_clamp_nondegenerate TimelineState.init 0 0 100
    (by norm_num [TimelineState.init]) (by norm_num)).1

/-- Counterexample to C7 as stated: the claim quantifies over any prior
`TimelineState`, but at the reachable degenerate window of
`exDegenerateTL` (`startTime = endTime = 2e9`, well inside the extrema
`[0, 4e9]`) the handler's second division is `0 * 0 / 0`: the real
handler computes `NaN`, which survives both `Math.max` and `Math.min`,
so the stored window is not contained in the extrema — the modelled
handler returns `none` rather than any clamped window. -/
theorem c7_counterexample :
    exDegenerateTL.startTime = exDegenerateTL.endTime ∧
      exDegenerateTL.minStartTime ≤ exDegenerateTL.startTime ∧
      exDegenerateTL.endTime ≤ exDegenerateTL.maxEndTime ∧
      timelineScrollHandler exDegenerateTL 5 0 100 = none := by
  refine ⟨rfl, by norm_num [exDegenerateTL], by norm_num [exDegenerateTL], ?_⟩
  unfold timelineScrollHandler screenToTimeJs jsDiv exDegenerateTL
  norm_num

/-! ## Claim C8 — empty-input degeneracy -/

/-- C8: `arrangeSpans` on the empty list returns the degenerate
zero-extent box `{0, 0, 0}` (with no spans), and `getNodeSpans` on an
empty top-level list yields no lanes. -/
theorem c8_empty_input :
    arrangeSpans ([] : List VisSpan) = ([], ⟨0, 0, 0⟩) ∧
      getNodeSpans [] = [] :=
  ⟨rfl, rfl⟩

/-! ## Claim C9 — time-window materialization filters on root intervals -/

/-- C9: `getSpansForTimeRange` returns exactly the stored top-level spans
whose own interval passes the closed-interval overlap test against the
window; a top-level span failing the test is excluded (with its whole
subtree) even when one of its descendants overlaps the window. -/
theorem c9_root_interval_filter :
    (∀ (spans : List VisSpan) (a b : Int) (x : VisSpan),
        x ∈ getSpansForTimeRange spans a b ↔
          x ∈ spans ∧ isCollidingInAxis x.startTime x.endTime a b = true) ∧
    (∀ (spans : List VisSpan) (a b : Int) (x : VisSpan), x ∈ spans →
        isCollidingInAxis x.startTime x.endTime a b = false →
        (∃ d ∈ allNodes x, isCollidingInAxis d.startTime d.endTime a b = true) →
        x ∉ getSpansForTimeRange spans a b) := by
  constructor
  · intro spans a b x
    simp [getSpansForTimeRange, List.mem_filter]
  · intro spans a b x _ hfalse _ hmem
    rw [getSpansForTimeRange, List.mem_filter] at hmem
    rw [hfalse] at hmem
    exact Bool.false_ne_true hmem.2

/-- Witness for C9: the root `exP1` (interval `[0, 10]`) is dropped for
window `[50, 60]` although its descendant `exC1` (interval `[0, 100]`)
overlaps the window. -/
theorem c9_root_interval_filter_witness :
    exP1 ∉ getSpansForTimeRange [exP1] 50 60 :=
  c9_root_interval_filter.2 [exP1] 50 60 exP1 (List.mem_singleton_self exP1)
    (by decide)
    ⟨exC1, by
      show exC1 ∈ allNodes exP1
      rw [show allNodes exP1 = [exP1, exC1] from rfl]
      exact List.mem_cons_of_mem _ (List.mem_cons_self _ _), by decide⟩

/-! ## Claim C10 — the layout pass as a frame condition -/

theorem forall₂_get? {α β : Type} {R : α → β → Prop} :
    ∀ {l1 : List α} {l2 : List β}, List.Forall₂ R l1 l2 →
      ∀ (i : Nat) (x : α) (y : β), l1.get? i = some x → l2.get? i = some y →
        R x y := by
  intro l1 l2 h
  induction h with
  | nil => intro i x y hx _; simp at hx
  | cons hr _ ih =>
    intro i x y hx hy
    cases i with
    | zero =>
      simp only [List.get?_cons_zero, Option.some.injEq] at hx hy
      exact hx ▸ hy ▸ hr
    | succ i => exact ih i x y (by simpa using hx) (by simpa using hy)

/-- A frame-related span stays frame-related after its root level is
raised further. -/
theorem FrameB.withLevel_right {a b : VisSpan} (h : FrameB a b) (h' : Int)
    (hle : a.height_level ≤ h') : FrameB a (b.withLevel h') := by
  cases h with
  | mk a b hid hnm hst hen hp hev hr hat hlev hlen hck hhead =>
    refine FrameB.mk a (b.withLevel h') ?_ ?_ ?_ ?_ ?_ ?_ ?_ ?_ ?_ ?_ ?_ ?_ <;>
      simp only [VisSpan.withLevel_spanId, VisSpan.withLevel_name,
        VisSpan.withLevel_startTime, VisSpan.withLevel_endTime,
        VisSpan.withLevel_parentSpanId, VisSpan.withLevel_events,
        VisSpan.withLevel_resource, VisSpan.withLevel_attributes,
        VisSpan.withLevel_children, VisSpan.withLevel_height_level]
    · exact hid
    · exact hnm
    · exact hst
    · exact hen
    · exact hp
    · exact hev
    · exact hr
    · exact hat
    · exact hle
    · exact hlen
    · exact hck
    · exact hhead

/-- Main frame lemma: `arrangeSpan` is frame-preserving and keeps its
root's level; the placement pass keeps positions, relates every span to
its input by `FrameB`, and keeps the first sibling's level. -/
theorem frame_main :
    ∀ n : Nat,
      (∀ s : VisSpan, sizeOf s ≤ n →
        FrameB s (arrangeSpan s).1 ∧
          (arrangeSpan s).1.height_level = s.height_level) ∧
      (∀ l : List VisSpan, sizeOf l ≤ n →
        (bumpAll (arrangeKids l)).length = l.length ∧
        (∀ (i : Nat) (x : VisSpan) (o : VisSpan × SpanBoundingBox),
          l.get? i = some x → (bumpAll (arrangeKids l)).get? i = some o →
          FrameB x o.1) ∧
        (∀ (x : VisSpan) (o : VisSpan × SpanBoundingBox),
          l.get? 0 = some x → (bumpAll (arrangeKids l)).get? 0 = some o →
          o.1.height_level = x.height_level)) := by
  intro n
  induction n using Nat.strong_induction_on with
  | _ n ih =>
    have partB : ∀ l : List VisSpan, sizeOf l ≤ n →
        (bumpAll (arrangeKids l)).length = l.length ∧
        (∀ (i : Nat) (x : VisSpan) (o : VisSpan × SpanBoundingBox),
          l.get? i = some x → (bumpAll (arrangeKids l)).get? i = some o →
          FrameB x o.1) ∧
        (∀ (x : VisSpan) (o : VisSpan × SpanBoundingBox),
          l.get? 0 = some x → (bumpAll (arrangeKids l)).get? 0 = some o →
          o.1.height_level = x.height_level) := by
      intro l hl
      refine ⟨?_, ?_, ?_⟩
      · rw [bumpAll_length, arrangeKids_eq_map, List.length_map]
      · intro i x o hx ho
        have hpx : (arrangeKids l).get? i = some (arrangeSpan x) := by
          rw [arrangeKids_eq_map, List.get?_map, hx]; rfl
        obtain ⟨hbox, hge, hsp⟩ :=
          forall₂_get? (bumpAll_forall₂ (arrangeKids l)) i _ o hpx ho
        have hsx : sizeOf x < n :=
          lt_of_lt_of_le (List.sizeOf_lt_of_mem (List.get?_mem hx)) hl
        have hP1 := (ih (sizeOf x) hsx).1 x (le_refl _)
        rw [hsp]
        exact FrameB.withLevel_right hP1.1 _ (hP1.2 ▸ hge)
      · intro x o hx ho
        cases l with
        | nil => simp at hx
        | cons c cs =>
          simp only [List.get?_cons_zero, Option.some.injEq] at hx
          have hkids : arrangeKids (c :: cs) = arrangeSpan c :: arrangeKids cs := by
            simp [arrangeKids]
          obtain ⟨suffix, hsuf, -⟩ := bumpAll_cons_head (arrangeSpan c) (arrangeKids cs)
          rw [hkids, hsuf] at ho
          simp only [List.get?_cons_zero, Option.some.injEq] at ho
          have hsc : sizeOf c < n :=
            lt_of_lt_of_le (List.sizeOf_lt_of_mem (List.mem_cons_self c cs)) hl
          have hP1 := (ih (sizeOf c) hsc).1 c (le_refl _)
          rw [← ho, ← hx]
          exact hP1.2
    refine ⟨?_, partB⟩
    intro s hs
    cases s with
    | mk i nm st en p ch ev r a lv =>
      cases ch with
      | nil =>
        refine ⟨FrameB.mk _ _ rfl rfl rfl rfl rfl rfl rfl rfl (le_refl _) rfl
          (fun j x y hx _ => by simp at hx)
          (fun x y hx _ => by simp at hx), rfl⟩
      | cons c cs =>
        have hsz : sizeOf (c :: cs) < n := by
          have : sizeOf (c :: cs) < sizeOf (VisSpan.mk i nm st en p (c :: cs) ev r a lv) := by
            simp [VisSpan.mk.sizeOf_spec]; omega
          omega
        obtain ⟨hlen, hpw, hhead⟩ := (ih (sizeOf (c :: cs)) hsz).2 (c :: cs) (le_refl _)
        refine ⟨?_, rfl⟩
        simp only [arrangeSpan]
        refine FrameB.mk _ _ rfl rfl rfl rfl rfl rfl rfl rfl (le_refl _) ?_ ?_ ?_
        · simp only [VisSpan.children_mk, List.length_map]
          exact hlen
        · intro j x y hx hy
          simp only [VisSpan.children_mk, List.get?_map] at hx hy
          cases hout : (bumpAll (arrangeKids (c :: cs))).get? j with
          | none => rw [hout] at hy; simp at hy
          | some o =>
            rw [hout] at hy
            simp only [Option.map_some', Option.some.injEq] at hy
            exact hy ▸ hpw j x o hx hout
        · intro x y hx hy
          simp only [VisSpan.children_mk, List.get?_map] at hx hy
          cases hout : (bumpAll (arrangeKids (c :: cs))).get? 0 with
          | none => rw [hout] at hy; simp at hy
          | some o =>
            rw [hout] at hy
            simp only [Option.map_some', Option.some.injEq] at hy
            exact hy ▸ hhead x o hx hout

/-- C10: `arrangeSpan`/`arrangeSpans` change nothing but `height_level`
fields: every span keeps its identity fields, events, resource,
attributes, and its children in the same order (all captured by
`FrameB`), every `height_level` only weakly increases from its initial
value, `arrangeSpan` keeps its root's own level, sibling groups keep
their length and positions, and the first sibling of every group keeps
its level exactly. -/
theorem c10_layout_frame :
    (∀ s : VisSpan, FrameB s (arrangeSpan s).1 ∧
        (arrangeSpan s).1.height_level = s.height_level) ∧
    (∀ l : List VisSpan,
        ((arrangeSpans l).1).length = l.length ∧
        (∀ (i : Nat) (x y : VisSpan), l.get? i = some x →
          (arrangeSpans l).1.get? i = some y → FrameB x y) ∧
        (∀ (x y : VisSpan), l.get? 0 = some x →
          (arrangeSpans l).1.get? 0 = some y →
          y.height_level = x.height_level)) := by
  constructor
  · intro s
    exact (frame_main (sizeOf s)).1 s (le_refl _)
  · intro l
    cases l with
    | nil =>
      refine ⟨rfl, ?_, ?_⟩
      · intro i x y hx _; simp at hx
      · intro x y hx _; simp at hx
    | cons c cs =>
      obtain ⟨hlen, hpw, hhead⟩ :=
        (frame_main (sizeOf (c :: cs))).2 (c :: cs) (le_refl _)
      have hfst : (arrangeSpans (c :: cs)).1 =
          (bumpAll (arrangeKids (c :: cs))).map Prod.fst := rfl
      refine ⟨?_, ?_, ?_⟩
      · rw [hfst, List.length_map]; exact hlen
      · intro i x y hx hy
        rw [hfst, List.get?_map] at hy
        cases hout : (bumpAll (arrangeKids (c :: cs))).get? i with
        | none => rw [hout] at hy; simp at hy
        | some o =>
          rw [hout] at hy
          simp only [Option.map_some', Option.some.injEq] at hy
          exact hy ▸ hpw i x o hx hout
      · intro x y hx hy
        rw [hfst, List.get?_map] at hy
        cases hout : (bumpAll (arrangeKids (c :: cs))).get? 0 with
        | none => rw [hout] at hy; simp at hy
        | some o =>
          rw [hout] at hy
          simp only [Option.map_some', Option.some.injEq] at hy
          exact hy ▸ hhead x o hx hout

/-- Witness for C10: the second sibling of the arranged pair
`[exLeafA, exLeafB]` is exactly `exLeafB` with only its level raised
(to 2). -/
theorem c10_layout_frame_witness :
    FrameB exLeafB (.mk "b" "b" 50 150 "" [] [] ⟨[]⟩ [] 2) :=
  (c10_layout_frame.2 [exLeafA, exLeafB]).2.1 1 exLeafB
    (.mk "b" "b" 50 150 "" [] [] ⟨[]⟩ [] 2) rfl rfl

/-! ## Claim C5 — bounding box tightness -/

theorem allNodes_unfold (i nm : String) (st en : Int) (p : String)
    (ch : List VisSpan) (ev : List Event) (r : Resource) (a : List KeyValue)
    (lv : Int) :
    allNodes (.mk i nm st en p ch ev r a lv) =
      VisSpan.mk i nm st en p ch ev r a lv :: allNodesL ch := rfl

theorem self_mem_allNodes (s : VisSpan) : s ∈ allNodes s := by
  cases s with
  | mk i nm st en p ch ev r a lv =>
    rw [allNodes_unfold]
    exact List.mem_cons_self _ _

theorem mem_allNodesL_iff (x : VisSpan) :
    ∀ l : List VisSpan, x ∈ allNodesL l ↔ ∃ s ∈ l, x ∈ allNodes s := by
  intro l
  induction l with
  | nil =>
    constructor
    · intro h; simp [allNodesL] at h
    · rintro ⟨s, hs, -⟩; simp at hs
  | cons c cs ih =>
    show x ∈ allNodes c ++ allNodesL cs ↔ _
    rw [List.mem_append, ih]
    constructor
    · rintro (h | ⟨s, hs, hx⟩)
      · exact ⟨c, List.mem_cons_self _ _, h⟩
      · exact ⟨s, List.mem_cons_of_mem _ hs, hx⟩
    · rintro ⟨s, hs, hx⟩
      rcases List.mem_cons.mp hs with rfl | hs
      · exact Or.inl hx
      · exact Or.inr ⟨s, hs, hx⟩

/-- The recomputed boxes are time-tight: a subtree box's `start_time` is
the minimum `startTime` over all spans of the subtree, and its `end_time`
the maximum `endTime`. -/
theorem treeBox_minmax :
    ∀ n : Nat,
      (∀ s : VisSpan, sizeOf s ≤ n →
        ((treeBox s).start_time ∈ (allNodes s).map VisSpan.startTime ∧
          ∀ t ∈ (allNodes s).map VisSpan.startTime, (treeBox s).start_time ≤ t) ∧
        ((treeBox s).end_time ∈ (allNodes s).map VisSpan.endTime ∧
          ∀ t ∈ (allNodes s).map VisSpan.endTime, t ≤ (treeBox s).end_time)) ∧
      (∀ l : List VisSpan, sizeOf l ≤ n → l ≠ [] →
        ((finalBox (treeBoxKids l)).start_time ∈ (allNodesL l).map VisSpan.startTime ∧
          ∀ t ∈ (allNodesL l).map VisSpan.startTime,
            (finalBox (treeBoxKids l)).start_time ≤ t) ∧
        ((finalBox (treeBoxKids l)).end_time ∈ (allNodesL l).map VisSpan.endTime ∧
          ∀ t ∈ (allNodesL l).map VisSpan.endTime,
            t ≤ (finalBox (treeBoxKids l)).end_time)) := by
  intro n
  induction n using Nat.strong_induction_on with
  | _ n ih =>
    have partB : ∀ l : List VisSpan, sizeOf l ≤ n → l ≠ [] →
        ((finalBox (treeBoxKids l)).start_time ∈ (allNodesL l).map VisSpan.startTime ∧
          ∀ t ∈ (allNodesL l).map VisSpan.startTime,
            (finalBox (treeBoxKids l)).start_time ≤ t) ∧
        ((finalBox (treeBoxKids l)).end_time ∈ (allNodesL l).map VisSpan.endTime ∧
          ∀ t ∈ (allNodesL l).map VisSpan.endTime,
            t ≤ (finalBox (treeBoxKids l)).end_time) := by
      intro l hl hne
      have hspan : ∀ s ∈ l,
          ((treeBox s).start_time ∈ (allNodes s).map VisSpan.startTime ∧
            ∀ t ∈ (allNodes s).map VisSpan.startTime, (treeBox s).start_time ≤ t) ∧
          ((treeBox s).end_time ∈ (allNodes s).map VisSpan.endTime ∧
            ∀ t ∈ (allNodes s).map VisSpan.endTime, t ≤ (treeBox s).end_time) := by
        intro s hs
        have hsz : sizeOf s < n :=
          lt_of_lt_of_le (List.sizeOf_lt_of_mem hs) hl
        exact (ih (sizeOf s) hsz).1 s (le_refl _)
      obtain ⟨c, cs, rfl⟩ := List.exists_cons_of_ne_nil hne
      have hkids : treeBoxKids (c :: cs) = (c, treeBox c) :: treeBoxKids cs := rfl
      rw [hkids, finalBox_cons_eq, ← hkids]
      have hmem_sub : ∀ s : VisSpan, s ∈ c :: cs →
          ∀ t, t ∈ (allNodes s).map VisSpan.startTime →
            t ∈ (allNodesL (c :: cs)).map VisSpan.startTime := by
        intro s hs t ht
        obtain ⟨x, hx, rfl⟩ := List.mem_map.mp ht
        exact List.mem_map_of_mem _ ((mem_allNodesL_iff x (c :: cs)).mpr ⟨s, hs, hx⟩)
      have hmem_sub_en : ∀ s : VisSpan, s ∈ c :: cs →
          ∀ t, t ∈ (allNodes s).map VisSpan.endTime →
            t ∈ (allNodesL (c :: cs)).map VisSpan.endTime := by
        intro s hs t ht
        obtain ⟨x, hx, rfl⟩ := List.mem_map.mp ht
        exact List.mem_map_of_mem _ ((mem_allNodesL_iff x (c :: cs)).mpr ⟨s, hs, hx⟩)
      have hkmem : ∀ pb ∈ treeBoxKids (c :: cs), pb.1 ∈ c :: cs ∧ pb.2 = treeBox pb.1 := by
        intro pb hpb
        rw [treeBoxKids_eq_map] at hpb
        obtain ⟨x, hx, rfl⟩ := List.mem_map.mp hpb
        exact ⟨hx, rfl⟩
      constructor
      · constructor
        · rcases foldl_min_attained
              (fun pb : VisSpan × SpanBoundingBox => pb.2.start_time)
              (treeBoxKids (c :: cs)) (treeBox c).start_time with h | ⟨pb, hpb, h⟩
          · rw [h]
            exact hmem_sub c (List.mem_cons_self _ _) _
              (hspan c (List.mem_cons_self _ _)).1.1
          · rw [h]
            obtain ⟨hpbl, hpb2⟩ := hkmem pb hpb
            rw [hpb2]
            exact hmem_sub pb.1 hpbl _ (hspan pb.1 hpbl).1.1
        · intro t ht
          obtain ⟨x, hx, rfl⟩ := List.mem_map.mp ht
          obtain ⟨s, hs, hxs⟩ := (mem_allNodesL_iff x (c :: cs)).mp hx
          have hmemk : (s, treeBox s) ∈ treeBoxKids (c :: cs) := by
            rw [treeBoxKids_eq_map]
            exact List.mem_map_of_mem _ hs
          refine le_trans (foldl_min_le_mem _ _ _ _ hmemk) ?_
          exact (hspan s hs).1.2 _ (List.mem_map_of_mem _ hxs)
      · constructor
        · rcases foldl_max_attained
              (fun pb : VisSpan × SpanBoundingBox => pb.2.end_time)
              (treeBoxKids (c :: cs)) (treeBox c).end_time with h | ⟨pb, hpb, h⟩
          · rw [h]
            exact hmem_sub_en c (List.mem_cons_self _ _) _
              (hspan c (List.mem_cons_self _ _)).2.1
          · rw [h]
            obtain ⟨hpbl, hpb2⟩ := hkmem pb hpb
            rw [hpb2]
            exact hmem_sub_en pb.1 hpbl _ (hspan pb.1 hpbl).2.1
        · intro t ht
          obtain ⟨x, hx, rfl⟩ := List.mem_map.mp ht
          obtain ⟨s, hs, hxs⟩ := (mem_allNodesL_iff x (c :: cs)).mp hx
          have hmemk : (s, treeBox s) ∈ treeBoxKids (c :: cs) := by
            rw [treeBoxKids_eq_map]
            exact List.mem_map_of_mem _ hs
          refine le_trans ?_ (foldl_max_ge_mem _ _ _ _ hmemk)
          exact (hspan s hs).2.2 _ (List.mem_map_of_mem _ hxs)
    refine ⟨?_, partB⟩
    intro s hs
    cases s with
    | mk i nm st en p ch ev r a lv =>
      cases ch with
      | nil =>
        constructor
        · exact ⟨by simp [treeBox_leaf, allNodes_unfold, allNodesL],
            by simp [treeBox_leaf, allNodes_unfold, allNodesL]⟩
        · exact ⟨by simp [treeBox_leaf, allNodes_unfold, allNodesL],
            by simp [treeBox_leaf, allNodes_unfold, allNodesL]⟩
      | cons c cs =>
        have hsz : sizeOf (c :: cs) < n := by
          have : sizeOf (c :: cs) <
              sizeOf (VisSpan.mk i nm st en p (c :: cs) ev r a lv) := by
            simp [VisSpan.mk.sizeOf_spec]; omega
          omega
        obtain ⟨⟨hgs1, hgs2⟩, ⟨hge1, hge2⟩⟩ :=
          (ih (sizeOf (c :: cs)) hsz).2 (c :: cs) (le_refl _) (List.cons_ne_nil _ _)
        rw [treeBox_cons, allNodes_unfold]
        constructor
        · constructor
          · rcases min_cases st (finalBox (treeBoxKids (c :: cs))).start_time with
              ⟨hm, -⟩ | ⟨hm, -⟩
            · rw [hm]
              exact List.mem_map_of_mem _ (List.mem_cons_self _ _)
            · rw [hm]
              simp only [List.map_cons]
              exact List.mem_cons_of_mem _ hgs1
          · intro t ht
            simp only [List.map_cons, List.mem_cons] at ht
            rcases ht with rfl | ht
            · simp
            · exact le_trans (min_le_right _ _) (hgs2 t ht)
        · constructor
          · rcases max_cases en (finalBox (treeBoxKids (c :: cs))).end_time with
              ⟨hm, -⟩ | ⟨hm, -⟩
            · rw [hm]
              exact List.mem_map_of_mem _ (List.mem_cons_self _ _)
            · rw [hm]
              simp only [List.map_cons]
              exact List.mem_cons_of_mem _ hge1
          · intro t ht
            simp only [List.map_cons, List.mem_cons] at ht
            rcases ht with rfl | ht
            · simp
            · exact le_trans (hge2 t ht) (le_max_right _ _)

/-- C5: for every non-empty sibling list entering the layout with fresh
(zero) root levels, the box returned by `arrangeSpans` has `start_time`
equal to the minimum `startTime` and `end_time` equal to the maximum
`endTime` over all contained spans (every node of every listed subtree),
and `height` equal to the maximum over the siblings of
`height_level + subtree box height`. -/
theorem c5_bounding_box_tightness (l : List VisSpan) (hne : l ≠ [])
    (hz : ∀ s ∈ l, s.height_level = 0) :
    ((arrangeSpans l).2.start_time ∈
        (allNodesL (arrangeSpans l).1).map VisSpan.startTime ∧
      ∀ t ∈ (allNodesL (arrangeSpans l).1).map VisSpan.startTime,
        (arrangeSpans l).2.start_time ≤ t) ∧
    ((arrangeSpans l).2.end_time ∈
        (allNodesL (arrangeSpans l).1).map VisSpan.endTime ∧
      ∀ t ∈ (allNodesL (arrangeSpans l).1).map VisSpan.endTime,
        t ≤ (arrangeSpans l).2.end_time) ∧
    ((∃ s ∈ (arrangeSpans l).1,
        (arrangeSpans l).2.height = s.height_level + (treeBox s).height) ∧
      ∀ s ∈ (arrangeSpans l).1,
        s.height_level + (treeBox s).height ≤ (arrangeSpans l).2.height) := by
  obtain ⟨c, cs, rfl⟩ := List.exists_cons_of_ne_nil hne
  have hfst : (arrangeSpans (c :: cs)).1 =
      (bumpAll (arrangeKids (c :: cs))).map Prod.fst := rfl
  have hsnd : (arrangeSpans (c :: cs)).2 =
      finalBox (bumpAll (arrangeKids (c :: cs))) := rfl
  have hpairs : treeBoxKids ((bumpAll (arrangeKids (c :: cs))).map Prod.fst) =
      bumpAll (arrangeKids (c :: cs)) :=
    treeBoxKids_of_matching _ (arrangeKids_boxes (c :: cs))
  have hlen : (bumpAll (arrangeKids (c :: cs))).length = (c :: cs).length := by
    rw [bumpAll_length, arrangeKids_eq_map, List.length_map]
  have hpne : bumpAll (arrangeKids (c :: cs)) ≠ [] := by
    intro h
    rw [h] at hlen
    simp at hlen
  obtain ⟨pb0, prest, hcons⟩ := List.exists_cons_of_ne_nil hpne
  have houtne : (bumpAll (arrangeKids (c :: cs))).map Prod.fst ≠ [] := by
    rw [hcons]; simp
  have htime := (treeBox_minmax
      (sizeOf ((bumpAll (arrangeKids (c :: cs))).map Prod.fst))).2
    ((bumpAll (arrangeKids (c :: cs))).map Prod.fst) (le_refl _) houtne
  rw [hpairs] at htime
  refine ⟨?_, ?_, ?_⟩
  · rw [hfst, hsnd]; exact htime.1
  · rw [hfst, hsnd]; exact htime.2
  · have hhd : pb0.1.height_level = 0 := by
      have := ((frame_main (sizeOf (c :: cs))).2 (c :: cs) (le_refl _)).2.2 c pb0
        rfl (by rw [hcons]; rfl)
      rw [this]
      exact hz c (List.mem_cons_self _ _)
    have hboxes := arrangeKids_boxes (c :: cs)
    constructor
    · rw [hfst, hsnd, hcons, finalBox_cons_eq]
      rcases foldl_max_attained
          (fun pb : VisSpan × SpanBoundingBox => pb.1.height_level + pb.2.height)
          (pb0 :: prest) pb0.2.height with h | ⟨pb, hpb, h⟩
      · refine ⟨pb0.1, by simp, ?_⟩
        rw [h, hhd]
        have : pb0.2 = treeBox pb0.1 := hboxes pb0 (by rw [hcons]; simp)
        rw [this]
        ring
      · refine ⟨pb.1, by rw [List.mem_map]; exact ⟨pb, hpb, rfl⟩, ?_⟩
        rw [h]
        have : pb.2 = treeBox pb.1 := hboxes pb (by rw [hcons]; exact hpb)
        rw [this]
    · intro s hs
      rw [hfst] at hs
      obtain ⟨pb, hpb, rfl⟩ := List.mem_map.mp hs
      have hbox : pb.2 = treeBox pb.1 := hboxes pb hpb
      rw [hsnd, hcons, finalBox_cons_eq, ← hbox]
      rw [hcons] at hpb
      exact foldl_max_ge_mem _ _ _ _ hpb

/-- Witness for C5 at `[exLeafA, exLeafB]`. -/
theorem c5_bounding_box_tightness_witness :
    ((arrangeSpans [exLeafA, exLeafB]).2.start_time ∈
        (allNodesL (arrangeSpans [exLeafA, exLeafB]).1).map VisSpan.startTime ∧
      ∀ t ∈ (allNodesL (arrangeSpans [exLeafA, exLeafB]).1).map VisSpan.startTime,
        (arrangeSpans [exLeafA, exLeafB]).2.start_time ≤ t) ∧
    ((arrangeSpans [exLeafA, exLeafB]).2.end_time ∈
        (allNodesL (arrangeSpans [exLeafA, exLeafB]).1).map VisSpan.endTime ∧
      ∀ t ∈ (allNodesL (arrangeSpans [exLeafA, exLeafB]).1).map VisSpan.endTime,
        t ≤ (arrangeSpans [exLeafA, exLeafB]).2.end_time) ∧
    ((∃ s ∈ (arrangeSpans [exLeafA, exLeafB]).1,
        (arrangeSpans [exLeafA, exLeafB]).2.height =
          s.height_level + (treeBox s).height) ∧
      ∀ s ∈ (arrangeSpans [exLeafA, exLeafB]).1,
        s.height_level + (treeBox s).height ≤
          (arrangeSpans [exLeafA, exLeafB]).2.height) :=
  c5_bounding_box_tightness [exLeafA, exLeafB] (List.cons_ne_nil _ _)
    (fun s hs => by
      rcases List.mem_cons.mp hs with rfl | hs
      · rfl
      · rcases List.mem_singleton.mp hs with rfl
        rfl)

/-! ## Claim C1 — no-overlap invariant: predicate lemmas -/

theorem zeroLevLB_iff : ∀ l : List VisSpan,
    zeroLevLB l = true ↔ ∀ t ∈ l, zeroLevB t = true := by
  intro l
  induction l with
  | nil => simp [zeroLevLB]
  | cons s rest ih =>
    show (zeroLevB s && zeroLevLB rest) = true ↔ _
    rw [Bool.and_eq_true, ih]
    constructor
    · rintro ⟨h1, h2⟩ t ht
      rcases List.mem_cons.mp ht with rfl | ht
      · exact h1
      · exact h2 t ht
    · intro h
      exact ⟨h s (List.mem_cons_self _ _), fun t ht => h t (List.mem_cons_of_mem _ ht)⟩

theorem zeroLevB_iff (s : VisSpan) :
    zeroLevB s = true ↔
      s.height_level = 0 ∧ ∀ t ∈ s.children, zeroLevB t = true := by
  cases s with
  | mk i nm st en p ch ev r a lv =>
    show (decide (lv = 0) && zeroLevLB ch) = true ↔ _
    rw [Bool.and_eq_true, decide_eq_true_eq, zeroLevLB_iff]
    simp only [VisSpan.height_level_mk, VisSpan.children_mk]

theorem nonnegLevLB_iff : ∀ l : List VisSpan,
    nonnegLevLB l = true ↔ ∀ t ∈ l, nonnegLevB t = true := by
  intro l
  induction l with
  | nil => simp [nonnegLevLB]
  | cons s rest ih =>
    show (nonnegLevB s && nonnegLevLB rest) = true ↔ _
    rw [Bool.and_eq_true, ih]
    constructor
    · rintro ⟨h1, h2⟩ t ht
      rcases List.mem_cons.mp ht with rfl | ht
      · exact h1
      · exact h2 t ht
    · intro h
      exact ⟨h s (List.mem_cons_self _ _), fun t ht => h t (List.mem_cons_of_mem _ ht)⟩

theorem nonnegLevB_iff (s : VisSpan) :
    nonnegLevB s = true ↔
      0 ≤ s.height_level ∧ ∀ t ∈ s.children, nonnegLevB t = true := by
  cases s with
  | mk i nm st en p ch ev r a lv =>
    show (decide (0 ≤ lv) && nonnegLevLB ch) = true ↔ _
    rw [Bool.and_eq_true, decide_eq_true_eq, nonnegLevLB_iff]
    simp only [VisSpan.height_level_mk, VisSpan.children_mk]

theorem nestedInB_iff (st en : Int) : ∀ l : List VisSpan,
    nestedInB st en l = true ↔
      ∀ t ∈ l, st ≤ t.startTime ∧ t.endTime ≤ en ∧ nestedB t = true := by
  intro l
  induction l with
  | nil => simp [nestedInB]
  | cons s rest ih =>
    show (decide (st ≤ s.startTime) && decide (s.endTime ≤ en) && nestedB s &&
        nestedInB st en rest) = true ↔ _
    rw [Bool.and_eq_true, Bool.and_eq_true, Bool.and_eq_true,
      decide_eq_true_eq, decide_eq_true_eq, ih]
    constructor
    · rintro ⟨⟨⟨h1, h2⟩, h3⟩, h4⟩ t ht
      rcases List.mem_cons.mp ht with rfl | ht
      · exact ⟨h1, h2, h3⟩
      · exact h4 t ht
    · intro h
      obtain ⟨h1, h2, h3⟩ := h s (List.mem_cons_self _ _)
      exact ⟨⟨⟨h1, h2⟩, h3⟩, fun t ht => h t (List.mem_cons_of_mem _ ht)⟩

theorem nestedB_iff (s : VisSpan) :
    nestedB s = true ↔
      s.startTime ≤ s.endTime ∧
        ∀ t ∈ s.children,
          s.startTime ≤ t.startTime ∧ t.endTime ≤ s.endTime ∧ nestedB t = true := by
  cases s with
  | mk i nm st en p ch ev r a lv =>
    show (decide (st ≤ en) && nestedInB st en ch) = true ↔ _
    rw [Bool.and_eq_true, decide_eq_true_eq, nestedInB_iff]
    simp only [VisSpan.startTime_mk, VisSpan.endTime_mk, VisSpan.children_mk]

theorem FrameB.startTime_eq {a b : VisSpan} (h : FrameB a b) :
    b.startTime = a.startTime := by cases h; assumption

theorem FrameB.endTime_eq {a b : VisSpan} (h : FrameB a b) :
    b.endTime = a.endTime := by cases h; assumption

/-- Index-matching helper: a member of `b.children` has a partner at the
same position in `a.children` when the lengths agree. -/
theorem partner_at_index {la lb : List VisSpan} (hlen : lb.length = la.length)
    {y : VisSpan} (hy : y ∈ lb) :
    ∃ (i : Nat) (x : VisSpan), la.get? i = some x ∧ lb.get? i = some y := by
  obtain ⟨i, hiy⟩ := List.mem_iff_get?.mp hy
  have hlt : i < lb.length := (List.get?_eq_some.mp hiy).1
  rw [hlen] at hlt
  exact ⟨i, la.get ⟨i, hlt⟩, List.get?_eq_get hlt, hiy⟩

/-- Fresh input levels give non-negative output levels through the frame
relation. -/
theorem frameB_zero_to_nonneg : ∀ {a b : VisSpan}, FrameB a b →
    zeroLevB a = true → nonnegLevB b = true := by
  intro a b h
  induction h with
  | mk a b hid hnm hst hen hp hev hr hat hlev hlen hck hhead ih =>
    intro hz
    rw [zeroLevB_iff] at hz
    rw [nonnegLevB_iff]
    refine ⟨by omega, ?_⟩
    intro y hy
    obtain ⟨i, x, hix, hiy⟩ := partner_at_index hlen hy
    exact ih i x y hix hiy (hz.2 x (List.get?_mem hix))

/-- Well-nestedness survives the layout pass. -/
theorem frameB_nested : ∀ {a b : VisSpan}, FrameB a b →
    nestedB a = true → nestedB b = true := by
  intro a b h
  induction h with
  | mk a b hid hnm hst hen hp hev hr hat hlev hlen hck hhead ih =>
    intro hn
    rw [nestedB_iff] at hn
    rw [nestedB_iff, hst, hen]
    refine ⟨hn.1, ?_⟩
    intro y hy
    obtain ⟨i, x, hix, hiy⟩ := partner_at_index hlen hy
    have hfxy := hck i x y hix hiy
    obtain ⟨h1, h2, h3⟩ := hn.2 x (List.get?_mem hix)
    exact ⟨hfxy.startTime_eq ▸ h1, hfxy.endTime_eq ▸ h2, ih i x y hix hiy h3⟩

/-- Row range of an occurrence: inside a subtree whose levels are
non-negative, every span is drawn in the row band
`[c + root level, c + root level + box height)`. -/
theorem occAt_range :
    ∀ (p : List Nat) (s : VisSpan) (c : Int) (x : VisSpan) (lx : Int),
      nonnegLevB s = true → occAt c s p = some (x, lx) →
      c + s.height_level ≤ lx ∧ lx < c + s.height_level + (treeBox s).height := by
  intro p
  induction p with
  | nil =>
    intro s c x lx _ hocc
    simp only [occAt, Option.some.injEq, Prod.mk.injEq] at hocc
    obtain ⟨-, rfl⟩ := hocc
    have := treeBox_height_pos s
    omega
  | cons i p ih =>
    intro s c x lx hnn hocc
    cases s with
    | mk id nm st en pp ch ev r a lv =>
      cases ch with
      | nil => simp [occAt] at hocc
      | cons c0 cs0 =>
        simp only [occAt, VisSpan.children_mk] at hocc
        cases hget : (c0 :: cs0).get? i with
        | none => rw [hget] at hocc; simp at hocc
        | some t =>
          rw [hget] at hocc
          have htm : t ∈ c0 :: cs0 := List.get?_mem hget
          have hts := (nonnegLevB_iff _).mp hnn
          simp only [VisSpan.children_mk] at hts
          have htnn : nonnegLevB t = true := hts.2 t htm
          have htlv : 0 ≤ t.height_level := ((nonnegLevB_iff t).mp htnn).1
          have hIH := ih t (c + lv + 1) x lx htnn hocc
          have hbound : t.height_level + (treeBox t).height ≤
              (finalBox (treeBoxKids (c0 :: cs0))).height := by
            have hmemk : (t, treeBox t) ∈ treeBoxKids (c0 :: cs0) := by
              rw [treeBoxKids_eq_map]
              exact List.mem_map_of_mem _ htm
            have hshape : treeBoxKids (c0 :: cs0) =
                (c0, treeBox c0) :: treeBoxKids cs0 := rfl
            rw [hshape, finalBox_cons_eq]
            rw [hshape] at hmemk
            exact foldl_max_ge_mem _ _ _ _ hmemk
          rw [treeBox_cons]
          simp only [VisSpan.height_level_mk] at hIH ⊢
          omega

/-- Time range of an occurrence: inside a well-nested subtree, every span
has a valid interval contained in the subtree root's interval. -/
theorem occAt_nested :
    ∀ (p : List Nat) (s : VisSpan) (c : Int) (x : VisSpan) (lx : Int),
      nestedB s = true → occAt c s p = some (x, lx) →
      s.startTime ≤ x.startTime ∧ x.endTime ≤ s.endTime ∧
        x.startTime ≤ x.endTime := by
  intro p
  induction p with
  | nil =>
    intro s c x lx hn hocc
    simp only [occAt, Option.some.injEq, Prod.mk.injEq] at hocc
    obtain ⟨rfl, -⟩ := hocc
    exact ⟨le_refl _, le_refl _, ((nestedB_iff s).mp hn).1⟩
  | cons i p ih =>
    intro s c x lx hn hocc
    cases s with
    | mk id nm st en pp ch ev r a lv =>
      cases ch with
      | nil => simp [occAt] at hocc
      | cons c0 cs0 =>
        simp only [occAt, VisSpan.children_mk] at hocc
        cases hget : (c0 :: cs0).get? i with
        | none => rw [hget] at hocc; simp at hocc
        | some t =>
          rw [hget] at hocc
          have htm : t ∈ c0 :: cs0 := List.get?_mem hget
          have hns := (nestedB_iff _).mp hn
          simp only [VisSpan.children_mk, VisSpan.startTime_mk,
            VisSpan.endTime_mk] at hns
          obtain ⟨h1, h2, h3⟩ := hns.2 t htm
          have hIH := ih t (c + lv + 1) x lx h3 hocc
          simp only [VisSpan.startTime_mk, VisSpan.endTime_mk]
          exact ⟨le_trans h1 hIH.1, le_trans hIH.2.1 h2, hIH.2.2⟩

/-- The layout pass establishes the group invariant: arranged sibling
groups are pairwise non-colliding at every depth. -/
theorem noCol_establish :
    ∀ n : Nat,
      (∀ s : VisSpan, sizeOf s ≤ n → NoColGroup ((arrangeSpan s).1).children) ∧
      (∀ l : List VisSpan, sizeOf l ≤ n →
        NoColGroup ((bumpAll (arrangeKids l)).map Prod.fst)) := by
  intro n
  induction n using Nat.strong_induction_on with
  | _ n ih =>
    have partB : ∀ l : List VisSpan, sizeOf l ≤ n →
        NoColGroup ((bumpAll (arrangeKids l)).map Prod.fst) := by
      intro l hl
      have hboxes := arrangeKids_boxes l
      have hheights : ∀ pb ∈ arrangeKids l, 0 ≤ pb.2.height := by
        intro pb hpb
        rw [arrangeKids_eq_map] at hpb
        obtain ⟨x, -, rfl⟩ := List.mem_map.mp hpb
        have := arrangeSpan_box_height_pos x
        omega
      refine NoColGroup.mk _ ?_ ?_
      · rw [List.pairwise_map]
        refine List.Pairwise.imp_of_mem ?_ (bumpAll_pairwise (arrangeKids l) hheights)
        intro a b ha hb hab
        rwa [hboxes a ha, hboxes b hb] at hab
      · intro t ht
        obtain ⟨pb, hpb, rfl⟩ := List.mem_map.mp ht
        obtain ⟨pbIn, hpbIn, hrel⟩ :=
          forall₂_mem_right (bumpAll_forall₂ (arrangeKids l)) pb hpb
        rw [arrangeKids_eq_map] at hpbIn
        obtain ⟨x, hx, rfl⟩ := List.mem_map.mp hpbIn
        obtain ⟨-, -, hsp⟩ := hrel
        rw [hsp, VisSpan.withLevel_children]
        have hsx : sizeOf x < n :=
          lt_of_lt_of_le (List.sizeOf_lt_of_mem hx) hl
        exact (ih (sizeOf x) hsx).1 x (le_refl _)
    refine ⟨?_, partB⟩
    intro s hs
    cases s with
    | mk i nm st en p ch ev r a lv =>
      cases ch with
      | nil =>
        exact NoColGroup.mk [] List.Pairwise.nil
          (fun s hs => absurd hs (List.not_mem_nil s))
      | cons c cs =>
        have hsz : sizeOf (c :: cs) < n := by
          have : sizeOf (c :: cs) <
              sizeOf (VisSpan.mk i nm st en p (c :: cs) ev r a lv) := by
            simp [VisSpan.mk.sizeOf_spec]; omega
          omega
        exact partB (c :: cs) (by omega)

theorem occAt_cons_eq (c : Int) (s : VisSpan) (i : Nat) (p : List Nat) :
    occAt c s (i :: p) =
      gOccAux (c + s.height_level + 1) s.children (i :: p) := rfl

theorem groupOcc_eq_gOccAux : ∀ (l : List VisSpan) (p : List Nat),
    groupOcc l p = gOccAux 0 l p := by
  intro l p
  cases p <;> rfl

theorem NoColGroup.pairwise {l : List VisSpan} (h : NoColGroup l) :
    List.Pairwise (fun a b => isColliding b (treeBox b) a (treeBox a) = false) l := by
  cases h with | mk l hpw hch => exact hpw

theorem NoColGroup.children_of_mem {l : List VisSpan} (h : NoColGroup l)
    {s : VisSpan} (hs : s ∈ l) : NoColGroup s.children := by
  cases h with | mk l hpw hch => exact hch s hs

/-- Separation: in an arranged group with non-negative levels and
well-nested times, two distinct occurrences at the same depth with
overlapping time intervals sit in different rows. -/
theorem gOccAux_sep :
    ∀ (p q : List Nat) (l : List VisSpan) (c : Int),
      NoColGroup l →
      (∀ s ∈ l, nonnegLevB s = true) →
      (∀ s ∈ l, nestedB s = true) →
      p ≠ q → p.length = q.length →
      ∀ (x : VisSpan) (lx : Int) (y : VisSpan) (ly : Int),
        gOccAux c l p = some (x, lx) → gOccAux c l q = some (y, ly) →
        isCollidingInAxis x.startTime x.endTime y.startTime y.endTime = true →
        lx ≠ ly := by
  intro p
  induction p with
  | nil =>
    intro q l c _ _ _ _ _ x lx y ly hx
    simp [gOccAux] at hx
  | cons i p ih =>
    intro q l c hnc hnn hnest hne hlen x lx y ly hx hy hov
    obtain ⟨j, q', rfl⟩ : ∃ j q', q = j :: q' := by
      cases q with
      | nil => simp at hlen
      | cons j q' => exact ⟨j, q', rfl⟩
    simp only [gOccAux] at hx hy
    cases hgi : l.get? i with
    | none => rw [hgi] at hx; simp at hx
    | some ri =>
      rw [hgi] at hx
      cases hgj : l.get? j with
      | none => rw [hgj] at hy; simp at hy
      | some rj =>
        rw [hgj] at hy
        have hri_mem : ri ∈ l := List.get?_mem hgi
        have hrj_mem : rj ∈ l := List.get?_mem hgj
        by_cases hij : i = j
        · subst hij
          have hrr : ri = rj := by
            rw [hgi] at hgj
            exact Option.some.inj hgj
          subst hrr
          have hpq : p ≠ q' := fun h => hne (by rw [h])
          have hlen' : p.length = q'.length := by simpa using hlen
          cases p with
          | nil =>
            cases q' with
            | nil => exact absurd rfl hpq
            | cons _ _ => simp at hlen'
          | cons i' p'' =>
            cases q' with
            | nil => simp at hlen'
            | cons j' q'' =>
              have hx' : gOccAux (c + ri.height_level + 1) ri.children
                  (i' :: p'') = some (x, lx) := hx
              have hy' : gOccAux (c + ri.height_level + 1) ri.children
                  (j' :: q'') = some (y, ly) := hy
              have hch_nn : ∀ s ∈ ri.children, nonnegLevB s = true :=
                ((nonnegLevB_iff ri).mp (hnn ri hri_mem)).2
              have hch_ne : ∀ s ∈ ri.children, nestedB s = true :=
                fun s hs => (((nestedB_iff ri).mp (hnest ri hri_mem)).2 s hs).2.2
              exact ih (j' :: q'') ri.children (c + ri.height_level + 1)
                (hnc.children_of_mem hri_mem) hch_nn hch_ne hpq hlen'
                x lx y ly hx' hy' hov
        · have hxn := occAt_nested p ri c x lx (hnest ri hri_mem) hx
          have hyn := occAt_nested q' rj c y ly (hnest rj hrj_mem) hy
          have hriv : ri.startTime ≤ ri.endTime :=
            ((nestedB_iff ri).mp (hnest ri hri_mem)).1
          have hrjv : rj.startTime ≤ rj.endTime :=
            ((nestedB_iff rj).mp (hnest rj hrj_mem)).1
          have hovp := (isCollidingInAxis_proper _ _ _ _ hxn.2.2 hyn.2.2).mp hov
          have htime_ij :
              isCollidingInAxis ri.startTime ri.endTime rj.startTime rj.endTime
                = true :=
            (isCollidingInAxis_proper _ _ _ _ hriv hrjv).mpr
              ⟨by omega, by omega⟩
          have hHi := treeBox_height_pos ri
          have hHj := treeBox_height_pos rj
          have hii : i < l.length := (List.get?_eq_some.mp hgi).1
          have hjj : j < l.length := (List.get?_eq_some.mp hgj).1
          have hgeti : l.get ⟨i, hii⟩ = ri := (List.get?_eq_some.mp hgi).2
          have hgetj : l.get ⟨j, hjj⟩ = rj := (List.get?_eq_some.mp hgj).2
          have hpw := List.pairwise_iff_get.mp hnc.pairwise
          have hcol : isColliding ri (treeBox ri) rj (treeBox rj) = false ∨
              isColliding rj (treeBox rj) ri (treeBox ri) = false := by
            rcases Nat.lt_or_ge i j with hlt | hge
            · right
              have := hpw ⟨i, hii⟩ ⟨j, hjj⟩ hlt
              rwa [hgeti, hgetj] at this
            · have hlt : j < i := by omega
              left
              have := hpw ⟨j, hjj⟩ ⟨i, hii⟩ hlt
              rwa [hgeti, hgetj] at this
          have hlev_sep :
              ri.height_level + (treeBox ri).height < rj.height_level ∨
                rj.height_level + (treeBox rj).height < ri.height_level := by
            rcases hcol with hc | hc
            · rw [isColliding_eq, Bool.and_eq_false_iff] at hc
              rcases hc with hc | hc
              · rw [htime_ij] at hc
                exact absurd hc (by simp)
              · have hnot : ¬(rj.height_level ≤ ri.height_level + (treeBox ri).height ∧
                    ri.height_level ≤ rj.height_level + (treeBox rj).height) := by
                  rw [← isCollidingInAxis_proper _ _ _ _ (by omega) (by omega)]
                  simp [hc]
                omega
            · rw [isColliding_eq, Bool.and_eq_false_iff] at hc
              rcases hc with hc | hc
              · rw [isCollidingInAxis_symm, htime_ij] at hc
                exact absurd hc (by simp)
              · have hnot : ¬(ri.height_level ≤ rj.height_level + (treeBox rj).height ∧
                    rj.height_level ≤ ri.height_level + (treeBox ri).height) := by
                  rw [← isCollidingInAxis_proper _ _ _ _ (by omega) (by omega)]
                  simp [hc]
                omega
          have hxr := occAt_range p ri c x lx (hnn ri hri_mem) hx
          have hyr := occAt_range q' rj c y ly (hnn rj hrj_mem) hy
          omega

theorem arrangeSpans_length (l : List VisSpan) :
    ((arrangeSpans l).1).length = l.length := by
  cases l with
  | nil => rfl
  | cons c cs =>
    show ((bumpAll (arrangeKids (c :: cs))).map Prod.fst).length = _
    rw [List.length_map, bumpAll_length, arrangeKids_eq_map, List.length_map]

theorem arrangeSpans_get_frame (l : List VisSpan) (i : Nat) (x y : VisSpan)
    (hx : l.get? i = some x) (hy : (arrangeSpans l).1.get? i = some y) :
    FrameB x y := by
  cases l with
  | nil => simp at hx
  | cons c cs =>
    have hfst : (arrangeSpans (c :: cs)).1 =
        (bumpAll (arrangeKids (c :: cs))).map Prod.fst := rfl
    rw [hfst, List.get?_map] at hy
    cases hout : (bumpAll (arrangeKids (c :: cs))).get? i with
    | none => rw [hout] at hy; simp at hy
    | some o =>
      rw [hout] at hy
      simp only [Option.map_some', Option.some.injEq] at hy
      exact hy ▸ ((frame_main (sizeOf (c :: cs))).2 (c :: cs) (le_refl _)).2.1
        i x o hx hout

/-- C1 (amended): for a sibling group entering the layout engine with
fresh (zero) levels and well-nested valid time intervals (every child's
interval inside its parent's and `startTime ≤ endTime`, as the data model
assumes), any two distinct equal-depth occurrences in the arranged lane
whose time intervals overlap under the closed-interval test are rendered
on different absolute rows. -/
theorem c1_no_overlap_nested (l : List VisSpan)
    (hz : ∀ s ∈ l, zeroLevB s = true)
    (hn : ∀ s ∈ l, nestedB s = true)
    (p q : List Nat) (hne : p ≠ q) (hlen : p.length = q.length)
    (x : VisSpan) (lx : Int) (y : VisSpan) (ly : Int)
    (hx : groupOcc (arrangeSpans l).1 p = some (x, lx))
    (hy : groupOcc (arrangeSpans l).1 q = some (y, ly))
    (hov : isCollidingInAxis x.startTime x.endTime y.startTime y.endTime = true) :
    lx ≠ ly := by
  rw [groupOcc_eq_gOccAux] at hx hy
  have hmem_nn : ∀ s ∈ (arrangeSpans l).1, nonnegLevB s = true := by
    intro s hs
    obtain ⟨i, hgets⟩ := List.mem_iff_get?.mp hs
    have hi : i < l.length := by
      have := (List.get?_eq_some.mp hgets).1
      rwa [arrangeSpans_length] at this
    have hgx : l.get? i = some (l.get ⟨i, hi⟩) := List.get?_eq_get hi
    exact frameB_zero_to_nonneg (arrangeSpans_get_frame l i _ s hgx hgets)
      (hz _ (List.get_mem l i hi))
  have hmem_ne : ∀ s ∈ (arrangeSpans l).1, nestedB s = true := by
    intro s hs
    obtain ⟨i, hgets⟩ := List.mem_iff_get?.mp hs
    have hi : i < l.length := by
      have := (List.get?_eq_some.mp hgets).1
      rwa [arrangeSpans_length] at this
    have hgx : l.get? i = some (l.get ⟨i, hi⟩) := List.get?_eq_get hi
    exact frameB_nested (arrangeSpans_get_frame l i _ s hgx hgets)
      (hn _ (List.get_mem l i hi))
  have hnc : NoColGroup ((arrangeSpans l).1) := by
    cases l with
    | nil =>
      exact NoColGroup.mk [] List.Pairwise.nil
        (fun s hs => absurd hs (List.not_mem_nil s))
    | cons c cs =>
      show NoColGroup ((bumpAll (arrangeKids (c :: cs))).map Prod.fst)
      exact (noCol_establish (sizeOf (c :: cs))).2 (c :: cs) (le_refl _)
  exact gOccAux_sep p q ((arrangeSpans l).1) 0 hnc hmem_nn hmem_ne hne hlen
    x lx y ly hx hy hov

/-- Witness for C1 (amended): the two overlapping leaves `exLeafA`,
`exLeafB` (depth-0 occurrences, paths `[0]` and `[1]`) land on rows 0 and
2. -/
theorem c1_no_overlap_nested_witness : (0 : Int) ≠ 2 :=
  c1_no_overlap_nested [exLeafA, exLeafB] (by decide) (by decide)
    [0] [1] (by decide) rfl exLeafA 0
    (.mk "b" "b" 50 150 "" [] [] ⟨[]⟩ [] 2) 2 rfl rfl (by decide)

/-- Counterexample to C1 as stated: without the nesting hypothesis the
invariant fails on the code.  In the lane `[exP1, exP2]` (fresh levels),
the child `exC1` (interval `[0, 100]`, sticking out of its parent
`exP1 = [0, 10]`) and the child `exC2` (interval `[50, 60]` inside
`exP2 = [50, 60]`) are distinct spans at equal depth 1 whose intervals
overlap under the closed test — yet both are assigned absolute row 1,
because `isColliding` compares the parents' own time intervals (disjoint
here), not their subtree extents. -/
theorem c1_counterexample :
    ((groupOcc (arrangeSpans [exP1, exP2]).1 [0, 0]).map
        (fun o => (o.1.startTime, o.1.endTime, o.2)) =
      some ((0 : Int), (100 : Int), (1 : Int))) ∧
      ((groupOcc (arrangeSpans [exP1, exP2]).1 [1, 0]).map
          (fun o => (o.1.startTime, o.1.endTime, o.2)) =
        some ((50 : Int), (60 : Int), (1 : Int))) ∧
      isCollidingInAxis 0 100 50 60 = true ∧
      ([0, 0] : List Nat) ≠ [1, 0] ∧
      ([0, 0] : List Nat).length = ([1, 0] : List Nat).length ∧
      (∀ s ∈ [exP1, exP2], zeroLevB s = true) :=
  ⟨by decide, by decide, by decide, by decide, by decide, by decide⟩

/-! ## Claims C2/C3 — forest builder lemmas -/

@[simp] theorem VisSpan.withChildren_spanId (s : VisSpan) (l : List VisSpan) :
    (s.withChildren l).spanId = s.spanId := by cases s; rfl

@[simp] theorem VisSpan.withChildren_parentSpanId (s : VisSpan) (l : List VisSpan) :
    (s.withChildren l).parentSpanId = s.parentSpanId := by cases s; rfl

@[simp] theorem VisSpan.withChildren_children (s : VisSpan) (l : List VisSpan) :
    (s.withChildren l).children = l := by cases s; rfl

theorem sizeVisL_eq_sum : ∀ l : List VisSpan, sizeVisL l = (l.map sizeVis).sum := by
  intro l
  induction l with
  | nil => rfl
  | cons s rest ih => show sizeVis s + sizeVisL rest = _; simp [ih]

theorem sizeVis_withChildren (s : VisSpan) (l : List VisSpan) :
    sizeVis (s.withChildren l) = 1 + sizeVisL l := by
  cases s; rfl

theorem allNodes_withChildren (s : VisSpan) (l : List VisSpan) :
    allNodes (s.withChildren l) = s.withChildren l :: allNodesL l := by
  cases s; rfl

theorem insertBy_perm {α : Type} (le : α → α → Bool) (a : α) :
    ∀ l : List α, List.Perm (insertBy le a l) (a :: l) := by
  intro l
  induction l with
  | nil => exact List.Perm.refl _
  | cons b rest ih =>
    show (if le b a then b :: insertBy le a rest else a :: b :: rest).Perm _
    split
    · exact List.Perm.trans (List.Perm.cons b ih) (List.Perm.swap a b rest)
    · exact List.Perm.refl _

theorem foldl_insertBy_perm {α : Type} (le : α → α → Bool) :
    ∀ (l acc : List α),
      List.Perm (l.foldl (fun acc a => insertBy le a acc) acc) (acc ++ l) := by
  intro l
  induction l with
  | nil => intro acc; simp
  | cons a rest ih =>
    intro acc
    simp only [List.foldl_cons]
    refine List.Perm.trans (ih (insertBy le a acc)) ?_
    refine List.Perm.trans
      (List.Perm.append_right rest (insertBy_perm le a acc)) ?_
    exact List.perm_middle.symm

theorem sortBy_perm {α : Type} (le : α → α → Bool) (l : List α) :
    List.Perm (sortBy le l) l := by
  have h := foldl_insertBy_perm le l []
  rw [List.nil_append] at h
  exact h

theorem mem_sortBy {α : Type} (le : α → α → Bool) (l : List α) (x : α) :
    x ∈ sortBy le l ↔ x ∈ l :=
  (sortBy_perm le l).mem_iff

theorem sortBy_nodup {α : Type} (le : α → α → Bool) (l : List α)
    (h : l.Nodup) : (sortBy le l).Nodup :=
  ((sortBy_perm le l).nodup_iff).mpr h

theorem sum_map_add {α : Type} (f g : α → Nat) :
    ∀ l : List α, (l.map fun k => f k + g k).sum = (l.map f).sum + (l.map g).sum := by
  intro l
  induction l with
  | nil => rfl
  | cons a rest ih => simp [ih]; omega

theorem sum_ind_not_mem : ∀ (l : List Nat) (j : Nat), j ∉ l →
    (l.map fun k => if k = j then 1 else 0).sum = 0 := by
  intro l
  induction l with
  | nil => intro j _; rfl
  | cons k rest ih =>
    intro j hj
    have hk : k ≠ j := fun h => hj (h ▸ List.mem_cons_self k rest)
    simp only [List.map_cons, List.sum_cons, if_neg hk]
    rw [ih j (fun h => hj (List.mem_cons_of_mem _ h))]

theorem sum_ind_nodup_mem : ∀ (l : List Nat) (j : Nat), l.Nodup → j ∈ l →
    (l.map fun k => if k = j then 1 else 0).sum = 1 := by
  intro l
  induction l with
  | nil => intro j _ hj; simp at hj
  | cons k rest ih =>
    intro j hn hj
    rcases List.mem_cons.mp hj with rfl | hj
    · have h0 : (List.map (fun k => if k = j then 1 else 0) rest).sum = 0 :=
        sum_ind_not_mem rest j (List.nodup_cons.mp hn).1
      simp [h0]
    · have hk : k ≠ j := fun h => (List.nodup_cons.mp hn).1 (h ▸ hj)
      simp only [List.map_cons, List.sum_cons, if_neg hk]
      rw [ih j (List.nodup_cons.mp hn).2 hj]

theorem sum_map_sum_comm {α β : Type} (f : α → β → Nat) :
    ∀ (l1 : List α) (l2 : List β),
      (l1.map (fun a => (l2.map (f a)).sum)).sum =
        (l2.map (fun b => (l1.map (fun a => f a b)).sum)).sum := by
  intro l1
  induction l1 with
  | nil =>
    intro l2
    simp only [List.map_nil, List.sum_nil]
    induction l2 with
    | nil => rfl
    | cons b rest ih =>
      rw [List.map_cons, List.sum_cons, ← ih]
      rfl
  | cons a rest ih =>
    intro l2
    simp only [List.map_cons, List.sum_cons, ih]
    rw [← sum_map_add]

theorem spanAtIdx_lt (flat : List VisSpan) (i : Nat) (h : i < flat.length) :
    spanAtIdx flat i = flat.get ⟨i, h⟩ := by
  unfold spanAtIdx
  rw [List.get?_eq_get h]
  rfl

theorem spanAtIdx_mem (flat : List VisSpan) (i : Nat) (h : i < flat.length) :
    spanAtIdx flat i ∈ flat := by
  rw [spanAtIdx_lt flat i h]
  exact List.get_mem flat i h

/-- Distinct span ids make positions with equal ids equal. -/
theorem idx_id_inj (flat : List VisSpan)
    (hnodup : (flat.map VisSpan.spanId).Nodup) :
    ∀ i t, i < flat.length → t < flat.length →
      (spanAtIdx flat i).spanId = (spanAtIdx flat t).spanId → i = t := by
  intro i t hi ht heq
  have hi' : i < (flat.map VisSpan.spanId).length := by simpa using hi
  have ht' : t < (flat.map VisSpan.spanId).length := by simpa using ht
  have hgi : (flat.map VisSpan.spanId).get ⟨i, hi'⟩ = (spanAtIdx flat i).spanId := by
    rw [spanAtIdx_lt flat i hi]
    simp
  have hgt : (flat.map VisSpan.spanId).get ⟨t, ht'⟩ = (spanAtIdx flat t).spanId := by
    rw [spanAtIdx_lt flat t ht]
    simp
  have : (⟨i, hi'⟩ : Fin (flat.map VisSpan.spanId).length) = ⟨t, ht'⟩ :=
    (List.Nodup.get_inj_iff hnodup).mp (by rw [hgi, hgt, heq])
  exact congrArg Fin.val this

/-- With distinct ids every position is the id map's winner for its id. -/
theorem isLast_of_nodup (flat : List VisSpan)
    (hnodup : (flat.map VisSpan.spanId).Nodup) :
    ∀ i, isLastWithId flat i = true := by
  intro i
  rcases Nat.lt_or_ge i flat.length with hi | hi
  · unfold isLastWithId
    rw [Bool.not_eq_true']
    rw [List.any_eq_false]
    intro x hx
    intro hbeq
    obtain ⟨m, hm⟩ := List.mem_iff_get?.mp hx
    rw [List.get?_drop] at hm
    have hidx : i + 1 + m < flat.length := (List.get?_eq_some.mp hm).1
    have hxat : spanAtIdx flat (i + 1 + m) = x := by
      unfold spanAtIdx
      rw [hm]
      rfl
    have heq : (spanAtIdx flat (i + 1 + m)).spanId = (spanAtIdx flat i).spanId := by
      rw [hxat]
      exact eq_of_beq hbeq
    have := idx_id_inj flat hnodup (i + 1 + m) i hidx hi heq
    omega
  · unfold isLastWithId
    rw [List.drop_eq_nil_of_le (by omega)]
    rfl

theorem childIdxs_mem_iff (flat : List VisSpan) (i k : Nat) :
    k ∈ childIdxs flat i ↔
      isLastWithId flat i = true ∧ k < flat.length ∧
        (spanAtIdx flat k).parentSpanId = (spanAtIdx flat i).spanId := by
  unfold childIdxs
  split
  · next hlast =>
    rw [mem_sortBy, List.mem_filter, List.mem_range]
    simp only [beq_iff_eq]
    tauto
  · next hlast =>
    simp only [List.not_mem_nil, false_iff]
    intro h
    exact hlast h.1

theorem childIdxs_nodup (flat : List VisSpan) (i : Nat) :
    (childIdxs flat i).Nodup := by
  unfold childIdxs
  split
  · exact sortBy_nodup _ _ (List.Nodup.filter _ (List.nodup_range _))
  · exact List.nodup_nil

theorem childIdxs_lt (flat : List VisSpan) (i : Nat) :
    ∀ k ∈ childIdxs flat i, k < flat.length :=
  fun k hk => ((childIdxs_mem_iff flat i k).mp hk).2.1

theorem flatVis_children_nil (reqs : List ExportTraceServiceRequest) :
    ∀ s ∈ flatVisSpans reqs, s.children = [] := by
  intro s hs
  unfold flatVisSpans at hs
  rw [List.mem_flatMap] at hs
  obtain ⟨rq, -, hs⟩ := hs
  rw [List.mem_flatMap] at hs
  obtain ⟨rs, -, hs⟩ := hs
  rw [List.mem_flatMap] at hs
  obtain ⟨ss, -, hs⟩ := hs
  rw [List.mem_map] at hs
  obtain ⟨sp, -, rfl⟩ := hs
  rfl

theorem sizeVis_eq (s : VisSpan) : sizeVis s = 1 + sizeVisL s.children := by
  cases s; rfl

theorem extract_eq_rootIdxs (reqs : List ExportTraceServiceRequest) :
    extractVisSpans reqs =
      (rootIdxs (flatVisSpans reqs)).map
        (buildVisIdx (flatVisSpans reqs) (flatVisSpans reqs).length) := rfl

theorem rootIdxs_nodup (flat : List VisSpan) : (rootIdxs flat).Nodup :=
  List.Nodup.filter _ (List.nodup_range _)

theorem mem_rootIdxs (flat : List VisSpan) (i : Nat) :
    i ∈ rootIdxs flat ↔
      i < flat.length ∧ (spanAtIdx flat i).parentSpanId = "" := by
  unfold rootIdxs
  rw [List.mem_filter, List.mem_range]
  simp [beq_iff_eq]

theorem spanAtIdx_oob (flat : List VisSpan) (i : Nat) (h : flat.length ≤ i) :
    spanAtIdx flat i = default := by
  unfold spanAtIdx
  rw [List.get?_eq_none.mpr h]
  rfl

theorem sizeVis_buildVis (flat : List VisSpan)
    (hflat : ∀ s ∈ flat, s.children = []) :
    ∀ (f i : Nat), sizeVis (buildVisIdx flat f i) = sizeIdx flat f i := by
  intro f
  induction f with
  | zero =>
    intro i
    show sizeVis (spanAtIdx flat i) = 1
    have hch : (spanAtIdx flat i).children = [] := by
      rcases Nat.lt_or_ge i flat.length with hi | hi
      · exact hflat _ (spanAtIdx_mem flat i hi)
      · rw [spanAtIdx_oob flat i hi]; rfl
    rw [sizeVis_eq, hch]
    rfl
  | succ f ih =>
    intro i
    show sizeVis ((spanAtIdx flat i).withChildren
      ((childIdxs flat i).map (buildVisIdx flat f))) = _
    rw [sizeVis_withChildren, sizeVisL_eq_sum, List.map_map]
    show 1 + ((childIdxs flat i).map fun k => sizeVis (buildVisIdx flat f k)).sum =
      1 + ((childIdxs flat i).map (sizeIdx flat f)).sum
    rw [List.map_congr_left fun k _ => ih k]

theorem sum_map_one {α : Type} : ∀ l : List α, (l.map fun _ => 1).sum = l.length := by
  intro l
  induction l with
  | nil => rfl
  | cons a rest ih => rw [List.map_cons, List.sum_cons, ih, List.length_cons]; omega

theorem ite_eq_comm (i j : Nat) :
    (if i = j then 1 else 0) = (if j = i then 1 else 0) := by
  by_cases h : i = j
  · simp [h]
  · simp [h, Ne.symm h]

theorem sizeIdx_eq_occurs (flat : List VisSpan) :
    ∀ (f i : Nat), i < flat.length →
      sizeIdx flat f i =
        ((List.range flat.length).map fun j => occursIdx flat f i j).sum := by
  intro f
  induction f with
  | zero =>
    intro i hi
    show 1 = _
    have hcongr : (List.range flat.length).map (fun j => occursIdx flat 0 i j) =
        (List.range flat.length).map fun j => if j = i then 1 else 0 :=
      List.map_congr_left fun j _ => ite_eq_comm i j
    rw [hcongr,
      sum_ind_nodup_mem _ i (List.nodup_range _) (List.mem_range.mpr hi)]
  | succ f ih =>
    intro i hi
    show 1 + ((childIdxs flat i).map (sizeIdx flat f)).sum = _
    have hrhs : (List.range flat.length).map (fun j => occursIdx flat (f + 1) i j) =
        (List.range flat.length).map fun j =>
          (if i = j then 1 else 0) +
            ((childIdxs flat i).map fun k => occursIdx flat f k j).sum :=
      List.map_congr_left fun j _ => rfl
    rw [hrhs, sum_map_add]
    have h1 : ((List.range flat.length).map fun j => if i = j then 1 else 0).sum = 1 := by
      rw [List.map_congr_left fun j (_ : j ∈ List.range flat.length) => ite_eq_comm i j,
        sum_ind_nodup_mem _ i (List.nodup_range _) (List.mem_range.mpr hi)]
    rw [h1]
    congr 1
    rw [sum_map_sum_comm fun j k => occursIdx flat f k j]
    exact congrArg List.sum
      (List.map_congr_left fun k hk => ih k (childIdxs_lt flat i k hk))

theorem occurs_root (flat : List VisSpan)
    (hnoempty : ∀ s ∈ flat, s.spanId ≠ "")
    (j : Nat) (hj : j < flat.length)
    (hroot : (spanAtIdx flat j).parentSpanId = "") :
    ∀ (f i : Nat), i < flat.length →
      occursIdx flat f i j = if i = j then 1 else 0 := by
  have hnotchild : ∀ i, i < flat.length → j ∉ childIdxs flat i := by
    intro i hi hmem
    obtain ⟨-, -, hpar⟩ := (childIdxs_mem_iff flat i j).mp hmem
    rw [hroot] at hpar
    exact hnoempty _ (spanAtIdx_mem flat i hi) hpar.symm
  intro f
  induction f with
  | zero => intro i _; rfl
  | succ f ih =>
    intro i hi
    show (if i = j then 1 else 0) +
        ((childIdxs flat i).map fun k => occursIdx flat f k j).sum = _
    have hsum : ((childIdxs flat i).map fun k => occursIdx flat f k j).sum = 0 := by
      rw [List.map_congr_left fun k hk => ih k (childIdxs_lt flat i k hk)]
      exact sum_ind_not_mem _ j (hnotchild i hi)
    rw [hsum]
    simp

theorem occurs_step (flat : List VisSpan)
    (hnodup : (flat.map VisSpan.spanId).Nodup)
    (j t : Nat) (hj : j < flat.length) (ht : t < flat.length)
    (hpar : (spanAtIdx flat t).spanId = (spanAtIdx flat j).parentSpanId) :
    ∀ (f i : Nat), i < flat.length →
      occursIdx flat (f + 1) i j =
        (if i = j then 1 else 0) + occursIdx flat f i t := by
  have hkey : ∀ i, i < flat.length →
      ((childIdxs flat i).map fun k => if k = j then 1 else 0).sum =
        if i = t then 1 else 0 := by
    intro i hi
    by_cases hit : i = t
    · subst hit
      rw [if_pos rfl]
      refine sum_ind_nodup_mem _ j (childIdxs_nodup flat i) ?_
      rw [childIdxs_mem_iff]
      exact ⟨isLast_of_nodup flat hnodup i, hj, hpar.symm⟩
    · rw [if_neg hit]
      refine sum_ind_not_mem _ j ?_
      intro hmem
      obtain ⟨-, -, hp⟩ := (childIdxs_mem_iff flat i j).mp hmem
      exact hit (idx_id_inj flat hnodup i t hi ht (by rw [← hp, hpar]))
  intro f
  induction f with
  | zero =>
    intro i hi
    show (if i = j then 1 else 0) +
        ((childIdxs flat i).map fun k => occursIdx flat 0 k j).sum = _
    rw [show ((childIdxs flat i).map fun k => occursIdx flat 0 k j) =
        ((childIdxs flat i).map fun k => if k = j then 1 else 0) from
      List.map_congr_left fun k _ => rfl]
    rw [hkey i hi]
    rfl
  | succ f ih =>
    intro i hi
    show (if i = j then 1 else 0) +
        ((childIdxs flat i).map fun k => occursIdx flat (f + 1) k j).sum = _
    rw [List.map_congr_left fun k hk => ih k (childIdxs_lt flat i k hk)]
    rw [sum_map_add, hkey i hi]
    show (if i = j then 1 else 0) + ((if i = t then 1 else 0) +
      ((childIdxs flat i).map fun k => occursIdx flat f k t).sum) = _
    rfl

theorem occurs_roots_sum (flat : List VisSpan)
    (hnodup : (flat.map VisSpan.spanId).Nodup)
    (hnoempty : ∀ s ∈ flat, s.spanId ≠ "") :
    ∀ (j d : Nat), GroundedD flat j d → j < flat.length →
      ∀ f, d ≤ f →
        ((rootIdxs flat).map fun r => occursIdx flat f r j).sum = 1 := by
  intro j d hg
  induction hg with
  | root i d hroot =>
    intro hi f _
    rw [List.map_congr_left fun r hr =>
      occurs_root flat hnoempty i hi hroot f r ((mem_rootIdxs flat r).mp hr).1]
    exact sum_ind_nodup_mem _ i (rootIdxs_nodup flat)
      ((mem_rootIdxs flat i).mpr ⟨hi, hroot⟩)
  | step i t d ht hpar hg ih =>
    intro hi f hf
    obtain ⟨f', rfl⟩ : ∃ f', f = f' + 1 := ⟨f - 1, by omega⟩
    rw [List.map_congr_left fun r hr =>
      occurs_step flat hnodup i t hi ht hpar f' r ((mem_rootIdxs flat r).mp hr).1]
    rw [sum_map_add]
    have h1 : ((rootIdxs flat).map fun r => if r = i then 1 else 0).sum = 0 := by
      refine sum_ind_not_mem _ i ?_
      intro hmem
      have hpi := ((mem_rootIdxs flat i).mp hmem).2
      rw [← hpar] at hpi
      exact hnoempty _ (spanAtIdx_mem flat t ht) hpi
    rw [h1, ih ht f' (by omega)]

/-- C2 (amended): for an input whose spans have pairwise-distinct
non-empty ids and whose parent chains all reach the empty parent id
within N steps (no orphaned or cyclic parent links), the forest built by
`extractVisSpans` contains exactly N spans in total. -/
theorem c2_forest_partition (reqs : List ExportTraceServiceRequest)
    (hnodup : ((flatVisSpans reqs).map VisSpan.spanId).Nodup)
    (hnoempty : ∀ s ∈ flatVisSpans reqs, s.spanId ≠ "")
    (hg : ∀ i < (flatVisSpans reqs).length,
      GroundedD (flatVisSpans reqs) i (flatVisSpans reqs).length) :
    ((extractVisSpans reqs).map sizeVis).sum = (flatVisSpans reqs).length := by
  rw [extract_eq_rootIdxs, List.map_map]
  rw [show (rootIdxs (flatVisSpans reqs)).map
      (sizeVis ∘ buildVisIdx (flatVisSpans reqs) (flatVisSpans reqs).length) =
    (rootIdxs (flatVisSpans reqs)).map
      (sizeIdx (flatVisSpans reqs) (flatVisSpans reqs).length) from
    List.map_congr_left fun r _ =>
      sizeVis_buildVis (flatVisSpans reqs) (flatVis_children_nil reqs) _ r]
  rw [List.map_congr_left fun r hr =>
    sizeIdx_eq_occurs (flatVisSpans reqs) (flatVisSpans reqs).length r
      ((mem_rootIdxs (flatVisSpans reqs) r).mp hr).1]
  rw [sum_map_sum_comm
    (fun r j => occursIdx (flatVisSpans reqs) (flatVisSpans reqs).length r j)]
  rw [List.map_congr_left fun j hj =>
    occurs_roots_sum (flatVisSpans reqs) hnodup hnoempty j
      (flatVisSpans reqs).length (hg j (List.mem_range.mp hj))
      (List.mem_range.mp hj) (flatVisSpans reqs).length (le_refl _)]
  rw [sum_map_one, List.length_range]

/-- Witness for C2 at a two-span payload (root `a`, child `b`): the
forest holds both spans. -/
theorem c2_forest_partition_witness :
    ((extractVisSpans [exTreeReq]).map sizeVis).sum =
      (flatVisSpans [exTreeReq]).length :=
  c2_forest_partition [exTreeReq] (by decide) (by decide)
    (fun i hi => by
      match i, hi with
      | 0, _ => exact GroundedD.root 0 _ rfl
      | 1, _ => exact GroundedD.step 1 0 1 (by decide) rfl (GroundedD.root 0 1 rfl)
      | n + 2, h =>
        exact absurd h (by
          have hL : (flatVisSpans [exTreeReq]).length = 2 := rfl
          omega))

/-- Counterexample to C2 as stated: in `exCycleReq` the two spans have
pairwise-distinct ids (`a`, `b`) but reference each other as parents;
neither has an empty parent id, so the forest is empty and the total span
count is 0, not 2. -/
theorem c2_counterexample :
    ((flatVisSpans [exCycleReq]).map VisSpan.spanId).Nodup ∧
      (flatVisSpans [exCycleReq]).length = 2 ∧
      ((extractVisSpans [exCycleReq]).map sizeVis).sum = 0 :=
  ⟨by decide, rfl, rfl⟩

/-- Every node of the built forest is either a root (empty parent id) or
sits in a children list keyed by an input span's id. -/
theorem buildVis_parent (flat : List VisSpan)
    (hflat : ∀ s ∈ flat, s.children = []) :
    ∀ (f i : Nat), i < flat.length →
      ∀ t ∈ allNodes (buildVisIdx flat f i),
        t.parentSpanId = (spanAtIdx flat i).parentSpanId ∨
          ∃ u ∈ flat, u.spanId = t.parentSpanId := by
  intro f
  induction f with
  | zero =>
    intro i hi t ht
    have hch : (spanAtIdx flat i).children = [] :=
      hflat _ (spanAtIdx_mem flat i hi)
    have hall : allNodes (spanAtIdx flat i) = [spanAtIdx flat i] := by
      cases hsp : spanAtIdx flat i with
      | mk a b c d e ch g h a2 h2 =>
        rw [hsp] at hch
        rw [VisSpan.children_mk] at hch
        subst hch
        rfl
    rw [show buildVisIdx flat 0 i = spanAtIdx flat i from rfl, hall] at ht
    rcases List.mem_singleton.mp ht with rfl
    exact Or.inl rfl
  | succ f ih =>
    intro i hi t ht
    rw [show buildVisIdx flat (f + 1) i = (spanAtIdx flat i).withChildren
        ((childIdxs flat i).map (buildVisIdx flat f)) from rfl,
      allNodes_withChildren] at ht
    rcases List.mem_cons.mp ht with rfl | ht
    · left
      rw [VisSpan.withChildren_parentSpanId]
    · rw [mem_allNodesL_iff] at ht
      obtain ⟨sub, hsub, htsub⟩ := ht
      obtain ⟨k, hk, rfl⟩ := List.mem_map.mp hsub
      have hkN : k < flat.length := childIdxs_lt flat i k hk
      rcases ih k hkN t htsub with hleft | hright
      · right
        refine ⟨spanAtIdx flat i, spanAtIdx_mem flat i hi, ?_⟩
        rw [hleft]
        exact (((childIdxs_mem_iff flat i k).mp hk).2.2).symm
      · exact Or.inr hright

/-- C3 (amended): a raw span whose declared parent id is non-empty and
matches no input span id appears NOWHERE in the output forest (it is
dropped, not promoted to root): every forest node either has an empty
parent id or a parent id equal to some input span's id, so no node can
carry the orphan's parent id. -/
theorem c3_orphan_dropped (reqs : List ExportTraceServiceRequest) :
    (∀ t ∈ allNodesL (extractVisSpans reqs),
        t.parentSpanId = "" ∨
          ∃ u ∈ flatVisSpans reqs, u.spanId = t.parentSpanId) ∧
    (∀ pid : String, pid ≠ "" →
      (∀ u ∈ flatVisSpans reqs, u.spanId ≠ pid) →
      ∀ t ∈ allNodesL (extractVisSpans reqs), t.parentSpanId ≠ pid) := by
  have hmain : ∀ t ∈ allNodesL (extractVisSpans reqs),
      t.parentSpanId = "" ∨
        ∃ u ∈ flatVisSpans reqs, u.spanId = t.parentSpanId := by
    intro t ht
    rw [extract_eq_rootIdxs, mem_allNodesL_iff] at ht
    obtain ⟨rt, hrt, htmem⟩ := ht
    obtain ⟨r, hr, rfl⟩ := List.mem_map.mp hrt
    obtain ⟨hrN, hrpar⟩ := (mem_rootIdxs (flatVisSpans reqs) r).mp hr
    rcases buildVis_parent (flatVisSpans reqs) (flatVis_children_nil reqs)
        (flatVisSpans reqs).length r hrN t htmem with h | h
    · left
      rw [h, hrpar]
    · exact Or.inr h
  refine ⟨hmain, ?_⟩
  intro pid hpid hnone t ht hcontra
  rcases hmain t ht with h | ⟨u, hu, hid⟩
  · exact hpid (hcontra ▸ h)
  · exact hnone u hu (hid.trans hcontra)

/-- Witness for C3 at `exMixedReq` (root `a` plus orphan `b` with absent
parent `zzz`): the only forest node does not carry the orphan's parent
id. -/
theorem c3_orphan_dropped_witness :
    (VisSpan.mk "a" "a" 0 10 "" [] [] ⟨[]⟩ [] 0).parentSpanId ≠ "zzz" :=
  (c3_orphan_dropped [exMixedReq]).2 "zzz" (by decide) (by decide)
    (VisSpan.mk "a" "a" 0 10 "" [] [] ⟨[]⟩ [] 0)
    (by
      rw [show allNodesL (extractVisSpans [exMixedReq]) =
        [VisSpan.mk "a" "a" 0 10 "" [] [] ⟨[]⟩ [] 0] from rfl]
      exact List.mem_singleton_self _)

/-- Counterexample to C3 as stated: the orphan span of `exOrphanReq`
(parent id `zzz`, absent from the input) is NOT placed as a root — the
output forest is empty. -/
theorem c3_counterexample :
    extractVisSpans [exOrphanReq] = [] ∧
      (spanAtIdx (flatVisSpans [exOrphanReq]) 0).parentSpanId = "zzz" ∧
      (spanAtIdx (flatVisSpans [exOrphanReq]) 0).parentSpanId ≠ "" ∧
      (∀ u ∈ flatVisSpans [exOrphanReq], u.spanId ≠ "zzz") ∧
      (flatVisSpans [exOrphanReq]).length = 1 :=
  ⟨rfl, rfl, by decide, by decide, rfl⟩
